import Mathlib

/-!
A shallow embedding of `polyply/src/map_to_molecule.py` (the `MapToMolecule`
processor together with the module level helpers `tag_exclusions` and
`_correspondence_to_residue`).

Graphs are modelled the way `networkx` stores them: a graph is a list of
nodes, each carrying an attribute dictionary, together with a list of
undirected edges.  Python dictionaries are modelled as association lists
with dictionary update semantics (`dictSet` keeps the position of an
existing key and appends new keys, exactly like CPython insertion order).
Fallible dictionary lookups (`d[k]` raising `KeyError`) are modelled with
`Option` / `Except`.

The `vermouth` block and molecule operations (`Block.to_molecule`,
`Molecule.merge_molecule`, `Molecule.copy`) are external collaborators of
this file; they are modelled from section 6 of the specification:
instantiation produces a molecule with the nodes and edges of the block,
and merging adds the nodes of a block under fresh identifiers, returning
the correspondence from block identifiers to the fresh identifiers.
-/

set_option autoImplicit false

namespace MapToMol

/-- A Python attribute value: an integer (for example `resid`, `nrexcl`)
or a string (for example `resname`, `from_itp`). -/
inductive AVal where
  | int (i : Int)
  | str (s : String)
  deriving DecidableEq

/-- A Python attribute dictionary, as an association list in insertion
order. -/
abbrev Attrs := List (String × AVal)

/-- First-match association list lookup, the model of `d[k]` /
`d.get(k)`.  All dictionaries built by the embedded code have unique keys,
so the first match is the dictionary entry. -/
def alookup {α β : Type} [DecidableEq α] : List (α × β) → α → Option β
  | [], _ => none
  | (k, v) :: rest, key => if key = k then some v else alookup rest key

/-- Dictionary assignment `d[k] = v`: replace the value at an existing
key in place, or append a new entry, as a CPython dict does. -/
def dictSet {α β : Type} [DecidableEq α] : List (α × β) → α → β → List (α × β)
  | [], k, v => [(k, v)]
  | (k', v') :: rest, k, v =>
      if k = k' then (k, v) :: rest else (k', v') :: dictSet rest k v

/-- Dictionary bulk update `d.update(d2)`: apply `dictSet` for every pair
of `d2` in order. -/
def dictUpdate {α β : Type} [DecidableEq α] (d : List (α × β)) (d2 : List (α × β)) :
    List (α × β) :=
  d2.foldl (fun acc kv => dictSet acc kv.1 kv.2) d

/-- A `vermouth` block: a graph template with the scalar `nrexcl`
attribute; nodes carry attribute dictionaries. -/
structure Block where
  nrexcl : Int
  nodes : List (Nat × Attrs)
  edges : List (Nat × Nat)
  deriving DecidableEq

/-- The force field as consumed here: the mapping `force_field.blocks`
from block names to blocks, as an association list. -/
abbrev ForceField := List (String × Block)

/-- `force_field.blocks[name]` where `name` is an attribute value: block
names are strings, any other value is absent from the mapping. -/
def ffLookup (ff : ForceField) : AVal → Option Block
  | .str s => alookup ff s
  | .int _ => none

/-- A meta molecule: a residue level graph whose nodes carry attribute
dictionaries (`resname`, `resid`, optionally `from_itp`, ...). -/
structure MetaMol where
  nodes : List (Nat × Attrs)
  edges : List (Nat × Nat)
  deriving DecidableEq

/-- A fine grained molecule (also used for residue subgraphs): a graph
whose nodes carry attribute dictionaries. -/
structure Molecule where
  nodes : List (Nat × Attrs)
  edges : List (Nat × Nat)
  deriving DecidableEq

/-- The errors the Python code can raise: the `IOError` of an
inconsistent fragment, and the `KeyError` / `IndexError` of the various
dictionary, list and attribute lookups. -/
inductive MapErr where
  | inconsistentFragment
  | missingBlock (name : AVal)
  | missingNodeEntry (node : Nat)
  | missingFragmentEntry (node : Nat)
  | missingNode (node : Nat)
  | missingAttr (node : Nat) (attr : String)
  | indexError
  deriving DecidableEq

/-- Turn an optional value into an `Except`, the model of a lookup that
raises on a missing key. -/
def orRaise {β : Type} (o : Option β) (e : MapErr) : Except MapErr β :=
  match o with
  | some v => .ok v
  | none => .error e

/-! ## tag_exclusions -/

/-- The first loop of `tag_exclusions`: for every entry of
`node_to_block` look the block up and record its current `nrexcl`.  The
block name is carried along; `node_to_block` is a dict, so the later
re-lookup `node_to_block[node]` in the second loop returns exactly this
name.  A missing block is the `KeyError` of
`force_field.blocks[node_to_block[node]]`. -/
def collectExcls (node_to_block : List (Nat × AVal)) (ff : ForceField) :
    Option (List (Nat × AVal × Int)) :=
  match node_to_block with
  | [] => some []
  | (n, bname) :: rest => do
      let blk ← ffLookup ff bname
      let tail ← collectExcls rest ff
      some ((n, bname, blk.nrexcl) :: tail)

/-- `min(list(excls.values()))`. -/
def listMin : List Int → Option Int
  | [] => none
  | [x] => some x
  | x :: y :: rest => (listMin (y :: rest)).map (fun m => min x m)

/-- `nx.set_node_attributes(block, excl, "exclude")` followed by
`block.nrexcl = min_excl`. -/
def mutateBlock (excl : Int) (minExcl : Int) (blk : Block) : Block :=
  { nrexcl := minExcl
    nodes := blk.nodes.map (fun p => (p.1, dictSet p.2 "exclude" (AVal.int excl)))
    edges := blk.edges }

/-- Update the block stored under `name` in the force field in place;
the name is present whenever the first loop of `tag_exclusions`
succeeded, since nothing removes keys from the mapping. -/
def ffMapAt (ff : ForceField) (name : AVal) (f : Block → Block) : ForceField :=
  ff.map (fun p => if AVal.str p.1 = name then (p.1, f p.2) else p)

/-- `tag_exclusions(node_to_block, force_field)`: if the referenced
blocks do not all share one `nrexcl`, tag every node of every referenced
block with its original `nrexcl` under `exclude` and overwrite `nrexcl`
with the minimum. -/
def tagExclusions (node_to_block : List (Nat × AVal)) (ff : ForceField) :
    Option ForceField := do
  let excls ← collectExcls node_to_block ff
  if ((excls.map (fun e => e.2.2)).dedup.length > 1) then
    let minExcl ← listMin (excls.map (fun e => e.2.2))
    some (excls.foldl (fun acc e => ffMapAt acc e.2.1 (mutateBlock e.2.2 minExcl)) ff)
  else
    some ff

/-! ## Graph traversal

`nx.dfs_edges(G)` (no source) iterates over `G.nodes`; every still
unvisited node becomes the root of a depth first search carried out with
an explicit stack of `(node, remaining neighbour iterator)` frames, and
every discovery of an unvisited neighbour yields one tree edge.
`dfsLoop` is that stack loop.  The `fuel` argument only serves
termination: one unit is consumed per loop step, and `dfsFuel` is a safe
upper bound for the number of steps (the loop pops at most one frame per
discovered node plus the root, and removes one pending neighbour
otherwise; pending neighbours total at most the adjacency size). -/

/-- First occurrence deduplication, the insertion order of a Python
dict or `networkx` node container. -/
def dedupFirst (seen : List Nat) : List Nat → List Nat
  | [] => []
  | x :: rest =>
      if x ∈ seen then dedupFirst seen rest else x :: dedupFirst (x :: seen) rest

/-- Node identifiers of a `networkx` graph in insertion order: declared
nodes first, then endpoints of edges (`add_edge` inserts unknown
endpoints). -/
def nodeIds (mm : MetaMol) : List Nat :=
  dedupFirst [] (mm.nodes.map Prod.fst ++ mm.edges.foldr (fun e acc => e.1 :: e.2 :: acc) [])

/-- `G[v]`: the neighbours of `v` in edge insertion order. -/
def adjList (mm : MetaMol) (v : Nat) : List Nat :=
  mm.edges.foldl
    (fun acc e =>
      if e.1 = v then acc ++ [e.2] else if e.2 = v then acc ++ [e.1] else acc) []

/-- One depth first search from a root, as the `networkx` stack loop.
The stack holds `(parent, pending neighbours)` frames; a pending
neighbour already visited (or, unreachably for the graphs built here,
outside the node list) is skipped, an unvisited one yields the tree edge
`(parent, child)` and pushes a frame for the child.  Returns the tree
edges in emission order together with the extended visited list. -/
def dfsLoop (adj : Nat → List Nat) :
    Nat → List (Nat × List Nat) → List Nat → List (Nat × Nat) × List Nat
  | 0, _, visited => ([], visited)
  | _ + 1, [], visited => ([], visited)
  | fuel + 1, (_, []) :: rest, visited => dfsLoop adj fuel rest visited
  | fuel + 1, (u, c :: cs) :: rest, visited =>
      if c ∈ visited then dfsLoop adj fuel ((u, cs) :: rest) visited
      else
        let r := dfsLoop adj fuel ((c, adj c) :: (u, cs) :: rest) (c :: visited)
        ((u, c) :: r.1, r.2)

/-- Fuel that the stack loop of one root can never exhaust: every step
removes a pending neighbour (at most the root adjacency plus twice the
edge count are ever pending) or pops a frame (at most one per node plus
the root). -/
def dfsFuel (mm : MetaMol) : Nat :=
  4 * mm.edges.length + (nodeIds mm).length + 2

/-- `list(nx.dfs_edges(meta_molecule))`: depth first tree edges over all
components, roots taken in node insertion order. -/
def dfsEdges (mm : MetaMol) : List (Nat × Nat) :=
  (nodeIds mm).foldl
    (fun acc s =>
      if s ∈ acc.2 then acc
      else
        let r := dfsLoop (adjList mm) (dfsFuel mm) [(s, adjList mm s)] (s :: acc.2)
        (acc.1 ++ r.1, r.2))
    (([], []) : List (Nat × Nat) × List Nat)
  |>.1

/-- `list(nx.connected_components(G))` for the graph with the given
nodes (in insertion order) and adjacency: for every unvisited node,
collect the nodes its traversal discovers.  The order inside a component
is irrelevant to the embedded code (Python iterates a set). -/
def componentsOf (adj : Nat → List Nat) (fuel : Nat) (nodes : List Nat) :
    List (List Nat) :=
  (nodes.foldl
    (fun acc s =>
      if s ∈ acc.2 then acc
      else
        let r := dfsLoop adj fuel [(s, adj s)] (s :: acc.2)
        (acc.1 ++ [r.2.filter (fun x => x ∉ acc.2)], r.2))
    (([], []) : List (List Nat) × List Nat))
  |>.1

/-! ## match_nodes_to_blocks -/

/-- The bookkeeping produced by `match_nodes_to_blocks`: the
`node_to_block`, `node_to_fragment` and `fragments` attributes of the
processor. -/
structure ClassifyOut where
  node_to_block : List (Nat × AVal)
  node_to_fragment : List (Nat × Nat)
  fragments : List (List Nat)
  deriving DecidableEq

/-- `nx.get_node_attributes(meta_molecule, "from_itp")`: the nodes
carrying the attribute, with its value. -/
def restartAttr (mm : MetaMol) : List (Nat × AVal) :=
  mm.nodes.filterMap (fun p => (alookup p.2 "from_itp").map (fun v => (p.1, v)))

/-- Insertion ordered node list of the graph assembled from an edge
list with `add_edge` (first occurrence order of the endpoints). -/
def nodesOfEdges (edges : List (Nat × Nat)) : List Nat :=
  dedupFirst [] (edges.foldr (fun e acc => e.1 :: e.2 :: acc) [])

/-- Adjacency of the graph assembled from an edge list. -/
def adjOfEdges (edges : List (Nat × Nat)) (v : Nat) : List Nat :=
  edges.foldl
    (fun acc e =>
      if e.1 = v then acc ++ [e.2] else if e.2 = v then acc ++ [e.1] else acc) []

/-- The list comprehension `[restart_attr[node] for node in fragment]`. -/
def lookupVals (restart_attr : List (Nat × AVal)) :
    List Nat → Except MapErr (List AVal)
  | [] => .ok []
  | node :: rest => do
      let v ← orRaise (alookup restart_attr node) (.missingAttr node "from_itp")
      let tail ← lookupVals restart_attr rest
      pure (v :: tail)

/-- The body of the fragment loop for one connected component of the
restart graph: take the `from_itp` name of some member, check that every
member agrees (otherwise the `IOError`), and look the named block up
(only for the `KeyError`; the Python binding of the block is unused). -/
def processFragment (restart_attr : List (Nat × AVal)) (ff : ForceField)
    (fragment : List Nat) : Except MapErr AVal := do
  let fst ← orRaise fragment.head? .indexError
  let block_name ← orRaise (alookup restart_attr fst) (.missingAttr fst "from_itp")
  let vals ← lookupVals restart_attr fragment
  if vals.all (fun v => v = block_name) then
    let _ ← orRaise (ffLookup ff block_name) (.missingBlock block_name)
    pure block_name
  else
    .error .inconsistentFragment

/-- The fragment loop of `match_nodes_to_blocks`: append every
consistent component to `fragments` and record block name and fragment
index for its members. -/
def fragmentLoop (restart_attr : List (Nat × AVal)) (ff : ForceField) :
    List (List Nat) → ClassifyOut → Except MapErr ClassifyOut
  | [], st => .ok st
  | fragment :: comps, st => do
      let block_name ← processFragment restart_attr ff fragment
      let fragments := st.fragments ++ [fragment]
      let st :=
        { node_to_block :=
            fragment.foldl (fun acc node => dictSet acc node block_name) st.node_to_block
          node_to_fragment :=
            fragment.foldl (fun acc node => dictSet acc node (fragments.length - 1))
              st.node_to_fragment
          fragments := fragments }
      fragmentLoop restart_attr ff comps st

/-- The depth first tree edges whose two endpoints both carry
`from_itp`, the edges added to `restart_graph`. -/
def restartEdgesOf (mm : MetaMol) : List (Nat × Nat) :=
  (dfsEdges mm).filter
    (fun e => (alookup (restartAttr mm) e.1).isSome ∧
      (alookup (restartAttr mm) e.2).isSome)

/-- The remaining depth first tree edges, the edges added to
`regular_graph`. -/
def regularEdgesOf (mm : MetaMol) : List (Nat × Nat) :=
  (dfsEdges mm).filter
    (fun e => ¬((alookup (restartAttr mm) e.1).isSome ∧
      (alookup (restartAttr mm) e.2).isSome))

/-- `nx.connected_components(restart_graph)`. -/
def restartComponents (mm : MetaMol) : List (List Nat) :=
  componentsOf (adjOfEdges (restartEdgesOf mm))
    (4 * (restartEdgesOf mm).length + (nodesOfEdges (restartEdgesOf mm)).length + 2)
    (nodesOfEdges (restartEdgesOf mm))

/-- The loop over `regular_graph.nodes`: map every node of a regular
edge to its `resname`. -/
def regularLoop (mm : MetaMol) :
    List Nat → List (Nat × AVal) → Except MapErr (List (Nat × AVal))
  | [], acc => .ok acc
  | node :: rest, acc => do
      let attrs ← orRaise (alookup mm.nodes node) (.missingNode node)
      let rname ← orRaise (alookup attrs "resname") (.missingAttr node "resname")
      regularLoop mm rest (dictSet acc node rname)

/-- `match_nodes_to_blocks(meta_molecule)` on a freshly initialised
processor: classify every depth first tree edge as restart (both
endpoints carry `from_itp`) or regular, map the nodes of regular edges
to their `resname`, and process the connected components of the restart
edge graph as fragments. -/
def matchNodesToBlocks (mm : MetaMol) (ff : ForceField) : Except MapErr ClassifyOut := do
  let node_to_block ← regularLoop mm (nodesOfEdges (regularEdgesOf mm)) []
  fragmentLoop (restartAttr mm) ff (restartComponents mm)
    { node_to_block := node_to_block, node_to_fragment := [], fragments := [] }

/-! ## Block and molecule operations (external collaborators, section 6
of the specification) -/

/-- `block.to_molecule()`: instantiate the block as a fresh molecule
with the block node identifiers; the dummy correspondence built right
after instantiation in `add_blocks` is the identity on these nodes. -/
def toMolecule (blk : Block) : Molecule :=
  { nodes := blk.nodes, edges := blk.edges }

/-- The smallest identifier strictly above every node of the molecule,
used as the offset for freshly merged block nodes. -/
def freshOffset (mol : Molecule) : Nat :=
  mol.nodes.foldl (fun acc p => max acc (p.1 + 1)) 0

/-- `molecule.merge_molecule(block)`: add the nodes and edges of the
block under fresh identifiers and return the correspondence from block
identifiers to the identifiers they received. -/
def mergeMolecule (mol : Molecule) (blk : Block) : Molecule × List (Nat × Nat) :=
  let off := freshOffset mol
  ({ nodes := mol.nodes ++ blk.nodes.map (fun p => (p.1 + off, p.2))
     edges := mol.edges ++ blk.edges.map (fun e => (e.1 + off, e.2 + off)) },
   blk.nodes.map (fun p => (p.1, p.1 + off)))

/-! ## _correspondence_to_residue -/

/-- `residue.add_node(n, **data)`: update the attributes of an existing
node, or append the node. -/
def addNodeData (ns : List (Nat × Attrs)) (n : Nat) (d : Attrs) : List (Nat × Attrs) :=
  match ns with
  | [] => [(n, d)]
  | (m, a) :: rest =>
      if n = m then (m, dictUpdate a d) :: rest else (m, a) :: addNodeData rest n d

/-- The attribute propagation loop of `_correspondence_to_residue`: copy
every attribute of the meta molecule node onto the residue node, except
`graph` and `seqID`. -/
def propagateMeta (mattrs : Attrs) (d : Attrs) : Attrs :=
  mattrs.foldl
    (fun acc kv =>
      if kv.1 = "graph" ∨ kv.1 = "seqID" then acc else dictSet acc kv.1 kv.2) d

/-- The node loop of `_correspondence_to_residue`: for every
correspondence target whose `resid` equals the `resid` of the meta
molecule node, add the node with the molecule attributes updated by the
propagated meta attributes. -/
def collectResidue (mol : Molecule) (mattrs : Attrs) (resid : AVal) :
    List (Nat × Nat) → List (Nat × Attrs) → Option (List (Nat × Attrs))
  | [], acc => some acc
  | p :: rest, acc => do
      let data ← alookup mol.nodes p.2
      let dresid ← alookup data "resid"
      if dresid = resid then
        collectResidue mol mattrs resid rest (addNodeData acc p.2 (propagateMeta mattrs data))
      else
        collectResidue mol mattrs resid rest acc

/-- `_correspondence_to_residue(meta_molecule, molecule, correspondence,
res_node)`: the residue graph of the meta molecule node, an edgeless
graph of the matching correspondence targets. -/
def correspondenceToResidue (mm : MetaMol) (mol : Molecule)
    (correspondence : List (Nat × Nat)) (res_node : Nat) : Option Molecule := do
  let mattrs ← alookup mm.nodes res_node
  let resid ← alookup mattrs "resid"
  let nodes ← collectResidue mol mattrs resid correspondence []
  some { nodes := nodes, edges := [] }

/-! ## add_blocks -/

/-- `"from_itp" in meta_molecule.nodes[node]`. -/
def hasFromItp (mm : MetaMol) (node : Nat) : Bool :=
  match alookup mm.nodes node with
  | some attrs => (alookup attrs "from_itp").isSome
  | none => false

/-- Python tuple comparison on `(resid, node)` pairs, as used by
`sorted(zip(resids, node_keys))`. -/
def tupLe (a b : Int × Nat) : Prop :=
  a.1 < b.1 ∨ (a.1 = b.1 ∧ a.2 ≤ b.2)

instance : DecidableRel tupLe := fun a b => by
  unfold tupLe; infer_instance

/-- Insertion of one pair into a sorted list under `tupLe`. -/
def pyInsert (a : Int × Nat) : List (Int × Nat) → List (Int × Nat)
  | [] => [a]
  | b :: rest => if tupLe a b then a :: b :: rest else b :: pyInsert a rest

/-- `sorted` on `(resid, node)` pairs (a sort by the total lexicographic
tuple order; Python mergesort and this insertion sort agree because the
order is total and antisymmetric on distinct pairs). -/
def pySort : List (Int × Nat) → List (Int × Nat)
  | [] => []
  | a :: rest => pyInsert a (pySort rest)

/-- `resid_dict[node]` as an integer: the `resid` attribute of a meta
molecule node (a string valued `resid` would make Python `sorted` raise
a `TypeError`, which is modelled as the same missing value). -/
def residInt (mm : MetaMol) (n : Nat) : Option Int := do
  let attrs ← alookup mm.nodes n
  let rv ← alookup attrs "resid"
  match rv with
  | .int i => some i
  | .str _ => none

/-- `[resid_dict[node] for node in node_keys]`. -/
def residsOf (mm : MetaMol) : List Nat → Except MapErr (List Int)
  | [] => .ok []
  | n :: rest => do
      let i ← orRaise (residInt mm n) (.missingAttr n "resid")
      let tail ← residsOf mm rest
      pure (i :: tail)

/-- The node ordering prelude of `add_blocks`: read every `resid` and
sort the node keys by ascending `(resid, node)` pairs. -/
def sortedNodeKeys (mm : MetaMol) : Except MapErr (List Nat) := do
  let node_keys := mm.nodes.map Prod.fst
  let resids ← residsOf mm node_keys
  pure ((pySort (resids.zip node_keys)).map Prod.snd)

/-- The two ways one loop iteration obtains its correspondence: a node
of an already materialised fragment reuses the stored fragment
correspondence (the molecule is unchanged), any other node merges its
block into the growing molecule. -/
def nodeCorrespondence (ff : ForceField) (cls : ClassifyOut)
    (multiblock : List (List (Nat × Nat))) (addedNodes : List Nat)
    (mol : Molecule) (node : Nat) :
    Except MapErr (Molecule × List (Nat × Nat)) :=
  if node ∈ addedNodes then do
    let fragment_id ←
      orRaise (alookup cls.node_to_fragment node) (.missingFragmentEntry node)
    let correspondence ← orRaise (multiblock.get? fragment_id) .indexError
    Except.ok (mol, correspondence)
  else do
    let bname ← orRaise (alookup cls.node_to_block node) (.missingNodeEntry node)
    let blk ← orRaise (ffLookup ff bname) (.missingBlock bname)
    Except.ok (mergeMolecule mol blk)

/-- The loop over `node_keys[1:]` of `add_blocks`.  State: the growing
molecule, `multiblock_correspondence`, `added_fragment_nodes`, and the
list of `(node, residue graph)` assignments made so far.
`added_fragments` is the processor attribute of that name: it is
initialised empty and never appended to anywhere in the source, so the
membership test on it only ever sees its initial value.  The fragment
bookkeeping after the residue extraction indexes
`node_to_fragment[start_node]` (the first node of the whole ordering),
exactly as the source does. -/
def addLoop (mm : MetaMol) (ff : ForceField) (cls : ClassifyOut)
    (start_node : Nat) (added_fragments : List Nat) :
    List Nat → Molecule → List (List (Nat × Nat)) → List Nat →
    List (Nat × Molecule) →
    Except MapErr (Molecule × List (Nat × Molecule))
  | [], mol, _, _, graphs => .ok (mol, graphs)
  | node :: rest, mol, multiblock, addedNodes, graphs => do
      let mc ← nodeCorrespondence ff cls multiblock addedNodes mol node
      let residue ←
        orRaise (correspondenceToResidue mm mc.1 mc.2 node)
          (.missingAttr node "resid")
      let graphs := graphs ++ [(node, residue)]
      if hasFromItp mm node ∧ node ∉ added_fragments then do
        let fragIdx ←
          orRaise (alookup cls.node_to_fragment start_node)
            (.missingFragmentEntry start_node)
        let fragment_nodes ← orRaise (cls.fragments.get? fragIdx) .indexError
        addLoop mm ff cls start_node added_fragments rest mc.1
          (multiblock ++ [mc.2]) (addedNodes ++ fragment_nodes) graphs
      else
        addLoop mm ff cls start_node added_fragments rest mc.1 multiblock
          addedNodes graphs

/-- `add_blocks(meta_molecule)` on a freshly initialised processor
(empty `multiblock_correspondence`, `added_fragments` and
`added_fragment_nodes`): instantiate the block of the first node in
`(resid, node)` order, extract its residue (or attach a copy of the
whole instantiated molecule when the node carries no `from_itp`), then
process the remaining nodes with `addLoop`.  Returns the assembled
molecule and the `graph` attribute assignments. -/
def addBlocks (mm : MetaMol) (ff : ForceField) (cls : ClassifyOut) :
    Except MapErr (Molecule × List (Nat × Molecule)) := do
  let node_keys ← sortedNodeKeys mm
  let start_node ← orRaise node_keys.head? .indexError
  let sname ← orRaise (alookup cls.node_to_block start_node) (.missingNodeEntry start_node)
  let sblk ← orRaise (ffLookup ff sname) (.missingBlock sname)
  let new_mol := toMolecule sblk
  if hasFromItp mm start_node then do
    let fragIdx ←
      orRaise (alookup cls.node_to_fragment start_node) (.missingFragmentEntry start_node)
    let fragment_nodes ← orRaise (cls.fragments.get? fragIdx) .indexError
    let correspondence := new_mol.nodes.map (fun p => (p.1, p.1))
    let residue ←
      orRaise (correspondenceToResidue mm new_mol correspondence start_node)
        (.missingAttr start_node "resid")
    addLoop mm ff cls start_node [] node_keys.tail new_mol [correspondence]
      fragment_nodes [(start_node, residue)]
  else
    addLoop mm ff cls start_node [] node_keys.tail new_mol [] []
      [(start_node, new_mol)]

/-! ## run_molecule -/

/-- The observable outcome of `run_molecule` on one meta molecule: the
error, if one was raised, together with the force field as it stands at
that moment, the assembled molecule (absent on error) and the residue
graph assignments made to the meta molecule nodes. -/
structure RunOut where
  err : Option MapErr
  ff : ForceField
  molecule : Option Molecule
  resGraphs : List (Nat × Molecule)
  deriving DecidableEq

/-- `run_molecule(meta_molecule)` on a freshly initialised processor:
classify, normalise exclusions, assemble.  An error in classification
leaves the force field untouched; an error in assembly happens after the
force field has already been normalised in place. -/
def runMolecule (mm : MetaMol) (ff : ForceField) : RunOut :=
  match matchNodesToBlocks mm ff with
  | .error e => { err := some e, ff := ff, molecule := none, resGraphs := [] }
  | .ok cls =>
      match tagExclusions cls.node_to_block ff with
      | none =>
          { err := some (.missingBlock (.str "")), ff := ff, molecule := none
            resGraphs := [] }
      | some ff2 =>
          match addBlocks mm ff2 cls with
          | .error e => { err := some e, ff := ff2, molecule := none, resGraphs := [] }
          | .ok (mol, graphs) =>
              { err := none, ff := ff2, molecule := some mol, resGraphs := graphs }

/-! ## Concrete instances used by the verification -/

/-- A meta molecule consisting of one isolated node that carries
`from_itp` (a single residue described by an itp file). -/
def mmIso : MetaMol :=
  ⟨[(1, [("resname", .str "A"), ("resid", .int 1), ("from_itp", .str "X")])], []⟩

/-- A meta molecule consisting of one isolated node carrying only
`resname` and `resid`. -/
def mmIsoPlain : MetaMol :=
  ⟨[(1, [("resname", .str "A"), ("resid", .int 1)])], []⟩

/-- A force field containing the blocks referenced by the isolated node
instances. -/
def ffIso : ForceField :=
  [("A", ⟨1, [(0, [("resid", .int 1)])], []⟩),
   ("X", ⟨1, [(0, [("resid", .int 1)])], []⟩)]

/-- A `node_to_block` mapping referencing three blocks. -/
def ntbThree : List (Nat × AVal) := [(1, .str "A"), (2, .str "B"), (3, .str "C")]

/-- Three blocks with the distinct `nrexcl` values 2, 3 and 4. -/
def ffThree : ForceField :=
  [("A", ⟨2, [(0, [("resid", .int 1)])], []⟩),
   ("B", ⟨3, [(0, [("resid", .int 1)])], []⟩),
   ("C", ⟨4, [(0, [("resid", .int 1)])], []⟩)]

/-- The three blocks after `tag_exclusions`: every `nrexcl` equals 2 and
every node carries `exclude` equal to the original `nrexcl`, including
the node of the block whose `nrexcl` already was the minimum. -/
def ffThreeTagged : ForceField :=
  [("A", ⟨2, [(0, [("resid", .int 1), ("exclude", .int 2)])], []⟩),
   ("B", ⟨2, [(0, [("resid", .int 1), ("exclude", .int 3)])], []⟩),
   ("C", ⟨2, [(0, [("resid", .int 1), ("exclude", .int 4)])], []⟩)]

/-- A triangle meta molecule: nodes 1 and 3 carry `from_itp` with the
two distinct names `X` and `Y`, node 2 carries none, and the edge
`(1, 3)` joins the two restart nodes directly.  The depth first
traversal picks the tree edges `(1, 2)` and `(2, 3)` and drops the
restart edge `(1, 3)`, so the classifier never sees the inconsistent
fragment. -/
def mmTri : MetaMol :=
  ⟨[(1, [("resname", .str "RA"), ("resid", .int 1), ("from_itp", .str "X")]),
    (2, [("resname", .str "RB"), ("resid", .int 2)]),
    (3, [("resname", .str "RC"), ("resid", .int 3), ("from_itp", .str "Y")])],
   [(1, 2), (2, 3), (1, 3)]⟩

/-- Blocks for the triangle instance, with distinct `nrexcl` values so
that normalisation mutates the force field. -/
def ffTri : ForceField :=
  [("RA", ⟨1, [(0, [("resid", .int 1)])], []⟩),
   ("RB", ⟨2, [(0, [("resid", .int 2)])], []⟩),
   ("RC", ⟨3, [(0, [("resid", .int 3)])], []⟩),
   ("X", ⟨1, [(0, [("resid", .int 1)])], []⟩),
   ("Y", ⟨1, [(0, [("resid", .int 3)])], []⟩)]

/-- The force field of the triangle instance after normalisation: the
state of the template library at the moment `add_blocks` raises. -/
def ffTriTagged : ForceField :=
  [("RA", ⟨1, [(0, [("resid", .int 1), ("exclude", .int 1)])], []⟩),
   ("RB", ⟨1, [(0, [("resid", .int 2), ("exclude", .int 2)])], []⟩),
   ("RC", ⟨1, [(0, [("resid", .int 3), ("exclude", .int 3)])], []⟩),
   ("X", ⟨1, [(0, [("resid", .int 1)])], []⟩),
   ("Y", ⟨1, [(0, [("resid", .int 3)])], []⟩)]

/-- Two directly bonded nodes whose `from_itp` names disagree: the
fragment consistency error the classifier does detect. -/
def mmPairBad : MetaMol :=
  ⟨[(1, [("resname", .str "RA"), ("resid", .int 1), ("from_itp", .str "X")]),
    (2, [("resname", .str "RB"), ("resid", .int 2), ("from_itp", .str "Y")])],
   [(1, 2)]⟩

/-- A two node meta molecule whose first node (in resid order) carries
no `from_itp` while the second does. -/
def mmMix : MetaMol :=
  ⟨[(1, [("resname", .str "RA"), ("resid", .int 1)]),
    (2, [("resname", .str "RB"), ("resid", .int 2), ("from_itp", .str "X")])],
   [(1, 2)]⟩

/-- Blocks for the mixed instance. -/
def ffMix : ForceField :=
  [("RA", ⟨1, [(0, [("resid", .int 1)])], []⟩),
   ("RB", ⟨1, [(0, [("resid", .int 2)])], []⟩),
   ("X", ⟨1, [(0, [("resid", .int 2)])], []⟩)]

/-- A three node chain whose resid-first node 1 carries no `from_itp`
while nodes 2 and 3 form one consistent multi-residue fragment `PEO`
joined by the restart edge `(2, 3)`. -/
def mmChain : MetaMol :=
  ⟨[(1, [("resname", .str "RA"), ("resid", .int 1)]),
    (2, [("resname", .str "R1"), ("resid", .int 2), ("from_itp", .str "PEO")]),
    (3, [("resname", .str "R2"), ("resid", .int 3), ("from_itp", .str "PEO")])],
   [(1, 2), (2, 3)]⟩

/-- Blocks for the chain instance: the single residue block of node 1
and the two residue fragment template, all with the same `nrexcl` so
normalisation stays a no-op. -/
def ffChain : ForceField :=
  [("RA", ⟨1, [(0, [("resid", .int 1)])], []⟩),
   ("PEO", ⟨1, [(0, [("resid", .int 2)]), (1, [("resid", .int 3)])], [(0, 1)]⟩)]

/-- A two node meta molecule whose nodes both belong to one
multi-residue fragment named `X`: resids 1 and 2, one restart edge. -/
def mmPair (X : String) : MetaMol :=
  ⟨[(1, [("resname", .str "R1"), ("resid", .int 1), ("from_itp", .str X)]),
    (2, [("resname", .str "R2"), ("resid", .int 2), ("from_itp", .str X)])],
   [(1, 2)]⟩

/-- A force field holding exactly the fragment template. -/
def ffPair (X : String) (blk : Block) : ForceField := [(X, blk)]

/-- The classifier output on `mmPair`. -/
def clsPair (X : String) : ClassifyOut :=
  ⟨[(2, .str X), (1, .str X)], [(2, 0), (1, 0)], [[2, 1]]⟩

/-- A concrete three atom fragment template with residues 1 and 2, used
to instantiate the scenario theorems. -/
def blkPairW : Block :=
  ⟨1, [(0, [("resid", .int 1), ("atomname", .str "C1")]),
       (1, [("resid", .int 1), ("atomname", .str "C2")]),
       (2, [("resid", .int 2), ("atomname", .str "C3")])],
   [(0, 1), (1, 2)]⟩

/-! ## Dictionary lemmas -/

theorem exceptBind_ok {ε α β : Type} (a : α) (f : α → Except ε β) :
    (Except.ok a >>= f) = f a := rfl

theorem exceptBind_error {ε α β : Type} (e : ε) (f : α → Except ε β) :
    ((Except.error e : Except ε α) >>= f) = Except.error e := rfl

theorem optBind_some {α β : Type} (a : α) (f : α → Option β) :
    ((some a : Option α) >>= f) = f a := rfl

theorem optBind_none {α β : Type} (f : α → Option β) :
    ((none : Option α) >>= f) = none := rfl

theorem exceptPure_eq_ok {ε α : Type} (a : α) : (pure a : Except ε α) = Except.ok a := rfl

theorem exceptMap_ok {ε α β : Type} (a : α) (f : α → β) :
    (f <$> (Except.ok a : Except ε α)) = Except.ok (f a) := rfl

theorem exceptMap_error {ε α β : Type} (e : ε) (f : α → β) :
    (f <$> (Except.error e : Except ε α)) = Except.error e := rfl

theorem alookup_cons {α β : Type} [DecidableEq α] (k : α) (v : β) (d : List (α × β))
    (key : α) :
    alookup ((k, v) :: d) key = if key = k then some v else alookup d key := rfl

theorem alookup_dictSet_self {α β : Type} [DecidableEq α] (d : List (α × β)) (k : α)
    (v : β) : alookup (dictSet d k v) k = some v := by
  induction d with
  | nil => simp [dictSet, alookup]
  | cons p rest ih =>
      by_cases h : k = p.1
      · simp [dictSet, h, alookup]
      · simp [dictSet, h, alookup, ih]

theorem alookup_dictSet_ne {α β : Type} [DecidableEq α] (d : List (α × β)) (k k' : α)
    (v : β) (h : k' ≠ k) : alookup (dictSet d k v) k' = alookup d k' := by
  induction d with
  | nil => simp [dictSet, alookup, h]
  | cons p rest ih =>
      by_cases hk : k = p.1
      · subst hk; simp [dictSet, alookup, h]
      · simp only [dictSet, if_neg hk, alookup]
        by_cases hk2 : k' = p.1
        · simp [hk2]
        · simp [hk2, ih]

theorem dictSet_idem {α β : Type} [DecidableEq α] (d : List (α × β)) (k : α) (v : β) :
    dictSet (dictSet d k v) k v = dictSet d k v := by
  induction d with
  | nil => simp [dictSet]
  | cons p rest ih =>
      by_cases h : k = p.1
      · simp [dictSet, h]
      · simp [dictSet, h, ih]

theorem alookup_eq_none_iff {α β : Type} [DecidableEq α] (d : List (α × β)) (k : α) :
    alookup d k = none ↔ k ∉ d.map Prod.fst := by
  induction d with
  | nil => simp [alookup]
  | cons p rest ih =>
      by_cases h : k = p.1
      · simp [alookup, h]
      · simp [alookup, h, ih]

theorem alookup_mem {α β : Type} [DecidableEq α] (d : List (α × β)) (k : α) (v : β)
    (h : alookup d k = some v) : (k, v) ∈ d := by
  induction d with
  | nil => simp [alookup] at h
  | cons p rest ih =>
      by_cases hk : k = p.1
      · simp only [alookup, if_pos hk] at h
        cases h
        subst hk
        exact List.mem_cons_self _ _
      · simp only [alookup, if_neg hk] at h
        exact List.mem_cons_of_mem _ (ih h)

theorem alookup_of_mem_nodup {α β : Type} [DecidableEq α] (d : List (α × β)) (k : α)
    (v : β) (hmem : (k, v) ∈ d) (hnd : (d.map Prod.fst).Nodup) :
    alookup d k = some v := by
  induction d with
  | nil => simp at hmem
  | cons p rest ih =>
      simp only [List.map_cons, List.nodup_cons] at hnd
      rcases List.mem_cons.mp hmem with h | h
      · subst h; simp [alookup]
      · have hk : k ≠ p.1 := by
          intro he
          exact hnd.1 (List.mem_map.mpr ⟨(k, v), h, he⟩)
        simp [alookup, hk, ih h hnd.2]

theorem alookup_perm {α β : Type} [DecidableEq α] (d d' : List (α × β)) (k : α)
    (hperm : d.Perm d') (hnd : (d.map Prod.fst).Nodup) :
    alookup d k = alookup d' k := by
  have hnd' : (d'.map Prod.fst).Nodup := (hperm.map Prod.fst).nodup_iff.mp hnd
  cases h : alookup d k with
  | none =>
      have hk := (alookup_eq_none_iff d k).mp h
      have hk' : k ∉ d'.map Prod.fst := fun hc =>
        hk ((hperm.map Prod.fst).mem_iff.mpr hc)
      exact ((alookup_eq_none_iff d' k).mpr hk').symm
  | some v =>
      exact (alookup_of_mem_nodup d' k v (hperm.mem_iff.mp (alookup_mem d k v h)) hnd').symm

/-! ## Claim C4 and C7: isolated nodes are never classified -/

/-- C4.  Evaluation of the code at the failing input: a meta molecule
consisting of a single node (which therefore is incident to no traversed
edge) carrying `resname`, `resid` and `from_itp`.  Classification
completes without error but produces an empty `node_to_block`, so the
node does not have exactly one entry determined by its `resname` or
`from_itp`, and the full pipeline subsequently fails on the missing
entry. -/
theorem c4_isolated_node_unclassified :
    hasFromItp mmIso 1 = true ∧
    matchNodesToBlocks mmIso ffIso = .ok ⟨[], [], []⟩ ∧
    runMolecule mmIso ffIso =
      { err := some (.missingNodeEntry 1), ff := ffIso, molecule := none
        resGraphs := [] } := by
  refine ⟨rfl, rfl, rfl⟩

/-- C7.  Evaluation of the code at the failing input: a meta molecule
consisting of a single node carrying only `resname` and `resid` (no
`from_itp` anywhere).  The fragment bookkeeping indeed stays empty, but
the node is not mapped to its `resname`: `node_to_block` is empty, and
the pipeline then fails on the missing entry. -/
theorem c7_resname_only_isolated_node_unmapped :
    (∀ p ∈ mmIsoPlain.nodes, alookup p.2 "from_itp" = none) ∧
    (∀ p ∈ mmIsoPlain.nodes, alookup p.2 "resname" = some (.str "A")) ∧
    matchNodesToBlocks mmIsoPlain ffIso = .ok ⟨[], [], []⟩ ∧
    runMolecule mmIsoPlain ffIso =
      { err := some (.missingNodeEntry 1), ff := ffIso, molecule := none
        resGraphs := [] } := by
  refine ⟨by decide, by decide, rfl, rfl⟩

/-! ## Claim C1: tag_exclusions tags the minimum template as well -/

/-- C1, counterexample.  With referenced `nrexcl` values exactly
`{2, 3, 4}`, `tag_exclusions` lowers every `nrexcl` to 2 and tags the
nodes of all three referenced templates, including the node of template
`A` whose original `nrexcl` already was 2: that node carries
`exclude = 2` afterwards, while the claim states it carries no `exclude`
attribute. -/
theorem c1_min_template_also_tagged_counterexample :
    (collectExcls ntbThree ffThree).map (fun l => l.map (fun e => e.2.2)) =
      some [2, 3, 4] ∧
    tagExclusions ntbThree ffThree = some ffThreeTagged ∧
    alookup ffThree "A" = some ⟨2, [(0, [("resid", .int 1)])], []⟩ ∧
    alookup ffThreeTagged "A" =
      some ⟨2, [(0, [("resid", .int 1), ("exclude", .int 2)])], []⟩ := by
  refine ⟨rfl, rfl, rfl, rfl⟩

/-! ## Claims C1 and C6: exclusion normalisation -/

theorem dedup_length_le_one {l : List Int} (h : ∀ a ∈ l, ∀ b ∈ l, a = b) :
    l.dedup.length ≤ 1 := by
  match hd : l.dedup with
  | [] => simp
  | [x] => simp
  | x :: y :: t =>
      exfalso
      have hx : x ∈ l := List.mem_dedup.mp (hd ▸ List.mem_cons_self _ _)
      have hy : y ∈ l := List.mem_dedup.mp
        (hd ▸ List.mem_cons_of_mem _ (List.mem_cons_self _ _))
      have hnd := l.nodup_dedup
      rw [hd] at hnd
      rcases List.nodup_cons.mp hnd with ⟨hxny, _⟩
      exact hxny (by rw [h x hx y hy]; exact List.mem_cons_self _ _)

/-- C6.  When every `nrexcl` recorded by the first loop of
`tag_exclusions` is the same, the function performs no mutation: the
force field is returned exactly as it was, no `nrexcl` changes and no
`exclude` attribute is added anywhere. -/
theorem c6_tag_exclusions_noop (ntb : List (Nat × AVal)) (ff : ForceField)
    (excls : List (Nat × AVal × Int)) (hc : collectExcls ntb ff = some excls)
    (hall : ∀ e ∈ excls, ∀ e2 ∈ excls, e.2.2 = e2.2.2) :
    tagExclusions ntb ff = some ff := by
  have hlen : ((excls.map (fun e => e.2.2)).dedup.length ≤ 1) := by
    apply dedup_length_le_one
    intro a ha b hb
    rcases List.mem_map.mp ha with ⟨ea, hea, rfl⟩
    rcases List.mem_map.mp hb with ⟨eb, heb, rfl⟩
    exact hall ea hea eb heb
  have hgt : ¬ ((excls.map (fun e => e.2.2)).dedup.length > 1) := by omega
  simp [tagExclusions, hc, hgt]

/-- C6 witness: two nodes referencing blocks that agree on `nrexcl`
leave the three block force field untouched. -/
theorem c6_tag_exclusions_noop_witness :
    tagExclusions [(1, .str "A"), (2, .str "A")] ffThree = some ffThree := by
  exact c6_tag_exclusions_noop _ _ [(1, .str "A", 2), (2, .str "A", 2)] rfl
    (by decide)

theorem ffLookup_ffMapAt_eq (ff : ForceField) (name : AVal) (f : Block → Block) :
    ffLookup (ffMapAt ff name f) name = (ffLookup ff name).map f := by
  cases name with
  | int i => rfl
  | str s =>
      induction ff with
      | nil => rfl
      | cons p rest ih =>
          simp only [ffMapAt, List.map_cons] at ih ⊢
          by_cases h : AVal.str p.1 = AVal.str s
          · have hps : s = p.1 := by cases h; rfl
            rw [if_pos h]
            simp only [ffLookup, alookup, if_pos hps]
            rfl
          · have hps : ¬ (s = p.1) := fun he => h (by rw [he])
            rw [if_neg h]
            simp only [ffLookup, alookup, if_neg hps] at ih ⊢
            exact ih

theorem ffLookup_ffMapAt_ne (ff : ForceField) (name bname : AVal) (f : Block → Block)
    (hne : bname ≠ name) :
    ffLookup (ffMapAt ff name f) bname = ffLookup ff bname := by
  cases bname with
  | int i => rfl
  | str s =>
      induction ff with
      | nil => rfl
      | cons p rest ih =>
          simp only [ffMapAt, List.map_cons] at ih ⊢
          by_cases h : AVal.str p.1 = name
          · have hps : ¬ (s = p.1) := by
              intro he
              exact hne (by rw [he, h])
            rw [if_pos h]
            simp only [ffLookup, alookup, if_neg hps] at ih ⊢
            exact ih
          · rw [if_neg h]
            by_cases hs : s = p.1
            · simp only [ffLookup, alookup, if_pos hs]
            · simp only [ffLookup, alookup, if_neg hs] at ih ⊢
              exact ih

theorem mutateBlock_idem (excl m : Int) (blk : Block) :
    mutateBlock excl m (mutateBlock excl m blk) = mutateBlock excl m blk := by
  unfold mutateBlock
  simp only [List.map_map]
  congr 1
  apply List.map_congr_left
  intro p _
  simp [dictSet_idem]

/-- Looking a name up after the mutation loop of `tag_exclusions`: a
referenced block appears mutated with its original `nrexcl` (the fold
applies the same idempotent mutation once per referencing node), an
unreferenced block is untouched. -/
theorem fold_mutate_lookup (m : Int) (orig : AVal → Int) :
    ∀ (excls : List (Nat × AVal × Int)) (ff : ForceField),
      (∀ e ∈ excls, e.2.2 = orig e.2.1) →
      ∀ bname : AVal,
        ffLookup
            (excls.foldl (fun acc e => ffMapAt acc e.2.1 (mutateBlock e.2.2 m)) ff)
            bname =
          if excls.any (fun e => e.2.1 = bname) then
            (ffLookup ff bname).map (mutateBlock (orig bname) m)
          else ffLookup ff bname := by
  intro excls
  induction excls with
  | nil => intro ff _ bname; simp
  | cons e0 tail ih =>
      intro ff hvals bname
      have h0 : e0.2.2 = orig e0.2.1 := hvals e0 (List.mem_cons_self _ _)
      have htail : ∀ e ∈ tail, e.2.2 = orig e.2.1 := fun e he =>
        hvals e (List.mem_cons_of_mem _ he)
      simp only [List.foldl_cons, List.any_cons]
      rw [ih (ffMapAt ff e0.2.1 (mutateBlock e0.2.2 m)) htail bname]
      by_cases hb0 : e0.2.1 = bname
      · subst hb0
        rw [ffLookup_ffMapAt_eq, ← h0]
        simp only [decide_True, Bool.true_or, if_true]
        by_cases hbt : tail.any (fun e => decide (e.2.1 = e0.2.1)) = true
        · simp only [hbt, if_true, Option.map_map]
          congr 1
          funext b
          exact mutateBlock_idem _ _ b
        · simp [hbt]
      · have hd : (decide (e0.2.1 = bname)) = false := decide_eq_false hb0
        rw [ffLookup_ffMapAt_ne ff e0.2.1 bname _ (fun he => hb0 he.symm)]
        simp only [hd, Bool.false_or]

theorem collectExcls_mem (ntb : List (Nat × AVal)) (ff : ForceField)
    (excls : List (Nat × AVal × Int)) (hc : collectExcls ntb ff = some excls) :
    ∀ e ∈ excls, ∃ blk, ffLookup ff e.2.1 = some blk ∧ blk.nrexcl = e.2.2 := by
  induction ntb generalizing excls with
  | nil =>
      simp only [collectExcls, Option.some.injEq] at hc
      subst hc
      intro e he
      simp at he
  | cons p rest ih =>
      simp only [collectExcls, Option.bind_eq_bind, bind, Option.bind] at hc
      cases hblk : ffLookup ff p.2 with
      | none => rw [hblk] at hc; simp at hc
      | some blk =>
          rw [hblk] at hc
          cases htail : collectExcls rest ff with
          | none => rw [htail] at hc; simp at hc
          | some tail =>
              rw [htail] at hc
              simp only [Option.some.injEq] at hc
              subst hc
              intro e he
              rcases List.mem_cons.mp he with h | h
              · subst h
                exact ⟨blk, hblk, rfl⟩
              · exact ih tail htail e h

theorem listMin_le (l : List Int) :
    ∀ m : Int, listMin l = some m → ∀ v ∈ l, m ≤ v := by
  induction l with
  | nil => intro m h; simp [listMin] at h
  | cons x rest ih =>
      intro m h
      cases rest with
      | nil =>
          simp only [listMin, Option.some.injEq] at h
          subst h
          intro v hv
          simp at hv
          simp [hv]
      | cons y t =>
          simp only [listMin, Option.map_eq_map] at h
          cases htail : listMin (y :: t) with
          | none => rw [htail] at h; simp at h
          | some m2 =>
              rw [htail] at h
              simp only [Option.map_some', Option.some.injEq] at h
              subst h
              intro v hv
              rcases List.mem_cons.mp hv with hv | hv
              · subst hv; exact min_le_left _ _
              · exact le_trans (min_le_right _ _) (ih m2 htail v hv)

theorem listMin_mem (l : List Int) :
    ∀ m : Int, listMin l = some m → m ∈ l := by
  induction l with
  | nil => intro m h; simp [listMin] at h
  | cons x rest ih =>
      intro m h
      cases rest with
      | nil =>
          simp only [listMin, Option.some.injEq] at h
          subst h
          exact List.mem_cons_self _ _
      | cons y t =>
          simp only [listMin, Option.map_eq_map] at h
          cases htail : listMin (y :: t) with
          | none => rw [htail] at h; simp at h
          | some m2 =>
              rw [htail] at h
              simp only [Option.map_some', Option.some.injEq] at h
              subst h
              rcases min_choice x m2 with hmin | hmin
              · rw [hmin]; exact List.mem_cons_self _ _
              · rw [hmin]; exact List.mem_cons_of_mem _ (ih m2 htail)

theorem listMin_isSome (l : List Int) (hne : l ≠ []) : ∃ m, listMin l = some m := by
  induction l with
  | nil => exact absurd rfl hne
  | cons x rest ih =>
      cases rest with
      | nil => exact ⟨x, rfl⟩
      | cons y t =>
          rcases ih (by simp) with ⟨m2, hm2⟩
          exact ⟨min x m2, by simp [listMin, hm2]⟩

/-- C1, amended.  When the referenced templates carry exactly the
distinct `nrexcl` values `{2, 3, 4}`, `tag_exclusions` rewrites every
referenced template so that its `nrexcl` is 2 and every one of its
nodes carries an `exclude` attribute equal to the original `nrexcl` of
that template, 2, 3 or 4 — including the nodes of the templates whose
original `nrexcl` already was 2, which receive `exclude = 2` rather
than no tag. -/
theorem c1_tag_exclusions_flatten_amended (ntb : List (Nat × AVal))
    (ff : ForceField) (excls : List (Nat × AVal × Int))
    (hc : collectExcls ntb ff = some excls)
    (h2 : (2 : Int) ∈ excls.map (fun e => e.2.2))
    (h3 : (3 : Int) ∈ excls.map (fun e => e.2.2))
    (hsub : ∀ v ∈ excls.map (fun e => e.2.2), v = 2 ∨ v = 3 ∨ v = 4) :
    ∃ ff', tagExclusions ntb ff = some ff' ∧
      ∀ e ∈ excls, ∃ blk, ffLookup ff e.2.1 = some blk ∧ blk.nrexcl = e.2.2 ∧
        ffLookup ff' e.2.1 = some (mutateBlock e.2.2 2 blk) ∧
        (mutateBlock e.2.2 2 blk).nrexcl = 2 ∧
        ∀ p ∈ (mutateBlock e.2.2 2 blk).nodes,
          alookup p.2 "exclude" = some (.int e.2.2) := by
  have hgt : (excls.map (fun e => e.2.2)).dedup.length > 1 := by
    by_contra hle
    have h2d : (2 : Int) ∈ (excls.map (fun e => e.2.2)).dedup := List.mem_dedup.mpr h2
    have h3d : (3 : Int) ∈ (excls.map (fun e => e.2.2)).dedup := List.mem_dedup.mpr h3
    match hd : (excls.map (fun e => e.2.2)).dedup with
    | [] => rw [hd] at h2d; simp at h2d
    | [x] =>
        rw [hd] at h2d h3d
        simp at h2d h3d
        omega
    | x :: y :: t => rw [hd] at hle; simp at hle
  have hne : excls.map (fun e => e.2.2) ≠ [] := by
    intro hnil
    rw [hnil] at h2
    simp at h2
  rcases listMin_isSome _ hne with ⟨m, hm⟩
  have hm2 : m = 2 := by
    have hmem := listMin_mem _ _ hm
    have hle2 := listMin_le _ _ hm 2 h2
    rcases hsub m hmem with h | h | h <;> omega
  subst hm2
  set orig : AVal → Int := fun a =>
    match ffLookup ff a with
    | some blk => blk.nrexcl
    | none => 0 with horig
  have hvals : ∀ e ∈ excls, e.2.2 = orig e.2.1 := by
    intro e he
    rcases collectExcls_mem ntb ff excls hc e he with ⟨blk, hblk, hnr⟩
    rw [horig]
    simp only [hblk]
    exact hnr.symm
  refine ⟨excls.foldl (fun acc e => ffMapAt acc e.2.1 (mutateBlock e.2.2 2)) ff,
    ?_, ?_⟩
  · rw [tagExclusions, hc]
    simp only [Option.bind_eq_bind, Option.some_bind, if_pos hgt, hm]
  intro e he
  rcases collectExcls_mem ntb ff excls hc e he with ⟨blk, hblk, hnr⟩
  refine ⟨blk, hblk, hnr, ?_, rfl, ?_⟩
  · rw [fold_mutate_lookup 2 orig excls ff hvals e.2.1]
    have hany : excls.any (fun e2 => e2.2.1 = e.2.1) = true :=
      List.any_eq_true.mpr ⟨e, he, by simp⟩
    rw [if_pos hany, hblk]
    have : orig e.2.1 = e.2.2 := (hvals e he).symm
    rw [this]
    rfl
  · intro p hp
    simp only [mutateBlock, List.mem_map] at hp
    rcases hp with ⟨q, _, rfl⟩
    exact alookup_dictSet_self _ _ _

/-- C1 witness: the three block force field with `nrexcl` values 2, 3
and 4. -/
theorem c1_tag_exclusions_flatten_witness :
    ∃ ff', tagExclusions ntbThree ffThree = some ff' ∧
      ∀ e ∈ [((1 : Nat), (AVal.str "A", (2 : Int))), (2, (.str "B", 3)),
          (3, (.str "C", 4))],
        ∃ blk, ffLookup ffThree e.2.1 = some blk ∧ blk.nrexcl = e.2.2 ∧
          ffLookup ff' e.2.1 = some (mutateBlock e.2.2 2 blk) ∧
          (mutateBlock e.2.2 2 blk).nrexcl = 2 ∧
          ∀ p ∈ (mutateBlock e.2.2 2 blk).nodes,
            alookup p.2 "exclude" = some (.int e.2.2) :=
  c1_tag_exclusions_flatten_amended ntbThree ffThree
    [(1, (.str "A", 2)), (2, (.str "B", 3)), (3, (.str "C", 4))]
    rfl (by decide) (by decide) (by decide)

/-! ## Claim C8: visiting order of add_blocks -/

instance : IsTrans (Int × Nat) tupLe :=
  ⟨by
    intro a b c hab hbc
    rcases hab with h | ⟨h1, h2⟩ <;> rcases hbc with h' | ⟨h1', h2'⟩
    · exact Or.inl (lt_trans h h')
    · exact Or.inl (h1' ▸ h)
    · exact Or.inl (h1 ▸ h')
    · exact Or.inr ⟨h1.trans h1', le_trans h2 h2'⟩⟩

instance : IsAntisymm (Int × Nat) tupLe :=
  ⟨by
    intro a b hab hba
    rcases hab with h | ⟨h1, h2⟩ <;> rcases hba with h' | ⟨h1', h2'⟩
    · exact absurd (lt_trans h h') (lt_irrefl _)
    · exact absurd h (h1' ▸ lt_irrefl _)
    · exact absurd h' (h1 ▸ lt_irrefl _)
    · exact Prod.ext h1 (le_antisymm h2 h2')⟩

instance : IsTotal (Int × Nat) tupLe :=
  ⟨by
    intro a b
    rcases lt_trichotomy a.1 b.1 with h | h | h
    · exact Or.inl (Or.inl h)
    · rcases Nat.le_total a.2 b.2 with h2 | h2
      · exact Or.inl (Or.inr ⟨h, h2⟩)
      · exact Or.inr (Or.inr ⟨h.symm, h2⟩)
    · exact Or.inr (Or.inl h)⟩

theorem pyInsert_perm (a : Int × Nat) (l : List (Int × Nat)) :
    (pyInsert a l).Perm (a :: l) := by
  induction l with
  | nil => simp [pyInsert]
  | cons b rest ih =>
      by_cases h : tupLe a b
      · simp [pyInsert, h]
      · simp only [pyInsert, if_neg h]
        exact (ih.cons b).trans (List.Perm.swap a b rest)

theorem pySort_perm (l : List (Int × Nat)) : (pySort l).Perm l := by
  induction l with
  | nil => simp [pySort]
  | cons a rest ih =>
      exact (pyInsert_perm a (pySort rest)).trans (ih.cons a)

theorem pyInsert_sorted (a : Int × Nat) (l : List (Int × Nat))
    (h : l.Sorted tupLe) : (pyInsert a l).Sorted tupLe := by
  induction l with
  | nil => simp [pyInsert]
  | cons b rest ih =>
      rcases List.sorted_cons.mp h with ⟨hb, hrest⟩
      by_cases hab : tupLe a b
      · rw [pyInsert, if_pos hab]
        refine List.sorted_cons.mpr ⟨?_, h⟩
        intro x hx
        rcases List.mem_cons.mp hx with hx | hx
        · exact hx ▸ hab
        · exact Trans.trans hab (hb x hx)
      · rw [pyInsert, if_neg hab]
        refine List.sorted_cons.mpr ⟨?_, ih hrest⟩
        intro x hx
        rcases List.mem_cons.mp ((pyInsert_perm a rest).mem_iff.mp hx) with hx | hx
        · rcases IsTotal.total (r := tupLe) a b with hba | hba
          · exact absurd hba hab
          · exact hx ▸ hba
        · exact hb x hx

theorem pySort_sorted (l : List (Int × Nat)) : (pySort l).Sorted tupLe := by
  induction l with
  | nil => simp [pySort]
  | cons a rest ih => exact pyInsert_sorted a (pySort rest) ih

theorem pySort_eq_of_perm (l l' : List (Int × Nat)) (h : l.Perm l') :
    pySort l = pySort l' := by
  refine List.eq_of_perm_of_sorted ?_ (pySort_sorted l) (pySort_sorted l')
  exact (pySort_perm l).trans (h.trans (pySort_perm l').symm)

theorem residsOf_of_fn (mm : MetaMol) (g : Nat → Int) :
    ∀ l : List Nat, (∀ n ∈ l, residInt mm n = some (g n)) →
      residsOf mm l = .ok (l.map g) := by
  intro l
  induction l with
  | nil => intro _; rfl
  | cons n rest ih =>
      intro hg
      have hn := hg n (List.mem_cons_self _ _)
      have hrest := ih (fun x hx => hg x (List.mem_cons_of_mem _ hx))
      rw [residsOf, hn]
      simp only [orRaise, exceptBind_ok, hrest, exceptMap_ok, exceptBind_error,
        exceptMap_error, List.map_cons]
      rfl

theorem residsOf_ok_mem (mm : MetaMol) :
    ∀ (l : List Nat) (rs : List Int), residsOf mm l = .ok rs →
      ∀ n ∈ l, ∃ i, residInt mm n = some i := by
  intro l
  induction l with
  | nil => intro rs _ n hn; simp at hn
  | cons n0 rest ih =>
      intro rs h n hn
      cases hres : residInt mm n0 with
      | none =>
          rw [residsOf, hres] at h
          simp only [orRaise, exceptBind_error] at h
          exact absurd h (by simp)
      | some i0 =>
          rw [residsOf, hres] at h
          cases htail : residsOf mm rest with
          | error e =>
              rw [htail] at h
              simp only [orRaise, exceptBind_ok, exceptMap_error] at h
              exact absurd h (by simp)
          | ok tail =>
              rcases List.mem_cons.mp hn with hn | hn
              · exact ⟨i0, hn ▸ hres⟩
              · exact ih tail htail n hn

theorem zip_map_self (g : Nat → Int) (l : List Nat) :
    (l.map g).zip l = l.map (fun n => (g n, n)) := by
  induction l with
  | nil => rfl
  | cons n rest ih => simp [ih]

theorem residInt_congr (mm mm' : MetaMol) (n : Nat)
    (h : alookup mm'.nodes n = alookup mm.nodes n) :
    residInt mm' n = residInt mm n := by
  unfold residInt
  rw [h]

/-- C8.  `add_blocks` visits the meta molecule nodes in the order
computed by `sortedNodeKeys`; along that order the `resid` attributes
are nondecreasing, and the order is a function of the node set alone:
any meta molecule whose node container is a permutation of the same
nodes is assigned exactly the same visiting order. -/
theorem c8_visit_order_sorted_deterministic (mm : MetaMol) (ks : List Nat)
    (h : sortedNodeKeys mm = .ok ks) :
    List.Pairwise
      (fun a b => ∀ ra rb, residInt mm a = some ra → residInt mm b = some rb →
        ra ≤ rb) ks ∧
    ∀ mm' : MetaMol, mm'.nodes.Perm mm.nodes → (mm.nodes.map Prod.fst).Nodup →
      sortedNodeKeys mm' = .ok ks := by
  set g : Nat → Int := fun n => (residInt mm n).getD 0 with hgdef
  cases hres : residsOf mm (mm.nodes.map Prod.fst) with
  | error e => rw [sortedNodeKeys, hres] at h; simp at h
  | ok rs =>
      have hg : ∀ n ∈ mm.nodes.map Prod.fst, residInt mm n = some (g n) := by
        intro n hn
        rcases residsOf_ok_mem mm _ rs hres n hn with ⟨i, hi⟩
        rw [hi, hgdef]
        simp [hi]
      have hres2 : residsOf mm (mm.nodes.map Prod.fst) =
          .ok ((mm.nodes.map Prod.fst).map g) := residsOf_of_fn mm g _ hg
      have hrs : rs = (mm.nodes.map Prod.fst).map g := by
        rw [hres] at hres2
        exact (Except.ok.injEq _ _ ▸ hres2 : _)
      rw [sortedNodeKeys, hres] at h
      simp only [exceptBind_ok, exceptPure_eq_ok, Except.ok.injEq] at h
      rw [hrs, zip_map_self] at h
      constructor
      · have hsorted := pySort_sorted ((mm.nodes.map Prod.fst).map (fun n => (g n, n)))
        have hmem : ∀ p ∈ pySort ((mm.nodes.map Prod.fst).map (fun n => (g n, n))),
            residInt mm p.2 = some p.1 := by
          intro p hp
          have hp2 := (pySort_perm _).mem_iff.mp hp
          rcases List.mem_map.mp hp2 with ⟨n, hn, rfl⟩
          exact hg n hn
        have hpair : List.Pairwise
            (fun a b : Int × Nat => ∀ ra rb, residInt mm a.2 = some ra →
              residInt mm b.2 = some rb → ra ≤ rb)
            (pySort ((mm.nodes.map Prod.fst).map (fun n => (g n, n)))) := by
          refine hsorted.imp_of_mem ?_
          intro a b ha hb hab
          intro ra rb hra hrb
          have ha2 := hmem a ha
          have hb2 := hmem b hb
          rw [ha2] at hra
          rw [hb2] at hrb
          cases hra
          cases hrb
          rcases hab with hlt | ⟨heq, _⟩
          · exact le_of_lt hlt
          · exact le_of_eq heq
        rw [← h]
        exact List.pairwise_map.mpr hpair
      · intro mm' hperm hnodup
        have hlk : ∀ n, alookup mm'.nodes n = alookup mm.nodes n := fun n =>
          (alookup_perm mm.nodes mm'.nodes n hperm.symm hnodup).symm
        have hri : ∀ n, residInt mm' n = residInt mm n := fun n =>
          residInt_congr mm mm' n (hlk n)
        have hkeys : (mm'.nodes.map Prod.fst).Perm (mm.nodes.map Prod.fst) :=
          hperm.map Prod.fst
        have hg' : ∀ n ∈ mm'.nodes.map Prod.fst, residInt mm' n = some (g n) := by
          intro n hn
          rw [hri n]
          exact hg n (hkeys.mem_iff.mp hn)
        have hres' : residsOf mm' (mm'.nodes.map Prod.fst) =
            .ok ((mm'.nodes.map Prod.fst).map g) := residsOf_of_fn mm' g _ hg'
        rw [sortedNodeKeys, hres']
        simp only [exceptBind_ok, exceptPure_eq_ok, Except.ok.injEq]
        rw [zip_map_self]
        rw [pySort_eq_of_perm _ ((mm.nodes.map Prod.fst).map (fun n => (g n, n)))
          (hkeys.map _)]
        exact h

/-- C8 witness: the two node meta molecule `mmMix` is visited in the
order `[1, 2]`. -/
theorem c8_visit_order_witness :
    List.Pairwise
      (fun a b => ∀ ra rb, residInt mmMix a = some ra → residInt mmMix b = some rb →
        ra ≤ rb) [1, 2] ∧
    ∀ mm' : MetaMol, mm'.nodes.Perm mmMix.nodes →
      (mmMix.nodes.map Prod.fst).Nodup → sortedNodeKeys mm' = .ok [1, 2] :=
  c8_visit_order_sorted_deterministic mmMix [1, 2] rfl

/-! ## Claim C9: no graph or seqID attribute leaks into residue nodes -/

theorem mem_keys_dictSet {α β : Type} [DecidableEq α] (d : List (α × β)) (k k' : α)
    (v : β) : k' ∈ (dictSet d k v).map Prod.fst ↔ k' = k ∨ k' ∈ d.map Prod.fst := by
  induction d with
  | nil => simp [dictSet]
  | cons p rest ih =>
      by_cases h : k = p.1
      · subst h
        simp [dictSet]
      · simp only [dictSet, if_neg h, List.map_cons, List.mem_cons, ih]
        tauto

theorem nodup_keys_dictSet {α β : Type} [DecidableEq α] (d : List (α × β)) (k : α)
    (v : β) (h : (d.map Prod.fst).Nodup) : ((dictSet d k v).map Prod.fst).Nodup := by
  induction d with
  | nil => simp [dictSet]
  | cons p rest ih =>
      simp only [List.map_cons, List.nodup_cons] at h
      by_cases hk : k = p.1
      · subst hk
        have hd : dictSet (p :: rest) p.1 v = (p.1, v) :: rest := by
          simp [dictSet]
        rw [hd, List.map_cons, List.nodup_cons]
        exact h
      · simp only [dictSet, if_neg hk, List.map_cons, List.nodup_cons]
        refine ⟨?_, ih h.2⟩
        intro hc
        rcases (mem_keys_dictSet rest k p.1 v).mp hc with hc | hc
        · exact hk hc.symm
        · exact h.1 hc

theorem propagateMeta_cons (kv : String × AVal) (rest : List (String × AVal))
    (d : Attrs) :
    propagateMeta (kv :: rest) d =
      propagateMeta rest
        (if kv.1 = "graph" ∨ kv.1 = "seqID" then d else dictSet d kv.1 kv.2) := rfl

theorem propagateMeta_lookup_special (mattrs : List (String × AVal)) (k : String)
    (hk : k = "graph" ∨ k = "seqID") :
    ∀ d : Attrs, alookup (propagateMeta mattrs d) k = alookup d k := by
  induction mattrs with
  | nil => intro d; rfl
  | cons kv rest ih =>
      intro d
      rw [propagateMeta_cons]
      by_cases h : kv.1 = "graph" ∨ kv.1 = "seqID"
      · rw [if_pos h]
        exact ih d
      · rw [if_neg h]
        rw [ih _]
        apply alookup_dictSet_ne
        intro he
        rcases hk with hk | hk <;> exact h (by rw [← he, hk]; tauto)

theorem propagateMeta_lookup_not_mem (mattrs : List (String × AVal)) (k : String)
    (hk : k ∉ mattrs.map Prod.fst) :
    ∀ d : Attrs, alookup (propagateMeta mattrs d) k = alookup d k := by
  induction mattrs with
  | nil => intro d; rfl
  | cons kv rest ih =>
      intro d
      simp only [List.map_cons, List.mem_cons] at hk
      push_neg at hk
      rw [propagateMeta_cons]
      by_cases h : kv.1 = "graph" ∨ kv.1 = "seqID"
      · rw [if_pos h]
        exact ih hk.2 d
      · rw [if_neg h]
        rw [ih hk.2 _]
        exact alookup_dictSet_ne _ _ _ _ hk.1

theorem propagateMeta_copies (mattrs : List (String × AVal)) (k : String) (v : AVal)
    (hnd : (mattrs.map Prod.fst).Nodup) (hv : alookup mattrs k = some v)
    (hg : ¬(k = "graph")) (hs : ¬(k = "seqID")) :
    ∀ d : Attrs, alookup (propagateMeta mattrs d) k = some v := by
  induction mattrs with
  | nil => intro d; simp [alookup] at hv
  | cons kv rest ih =>
      intro d
      simp only [List.map_cons, List.nodup_cons] at hnd
      rw [propagateMeta_cons]
      by_cases hk : k = kv.1
      · rw [alookup_cons, if_pos hk] at hv
        cases hv
        have hns : ¬(kv.1 = "graph" ∨ kv.1 = "seqID") := by
          intro hc
          rcases hc with hc | hc
          · exact hg (hk.trans hc)
          · exact hs (hk.trans hc)
        rw [if_neg hns]
        rw [propagateMeta_lookup_not_mem rest k (fun hc => hnd.1 (hk ▸ hc)) _, hk]
        exact alookup_dictSet_self d kv.1 kv.2
      · rw [alookup_cons, if_neg hk] at hv
        by_cases h : kv.1 = "graph" ∨ kv.1 = "seqID"
        · rw [if_pos h]
          exact ih hnd.2 hv d
        · rw [if_neg h]
          exact ih hnd.2 hv _

theorem propagateMeta_keys (mattrs : List (String × AVal)) (k : String) :
    ∀ d : Attrs, k ∈ (propagateMeta mattrs d).map Prod.fst →
      k ∈ d.map Prod.fst ∨
        (k ∈ mattrs.map Prod.fst ∧ ¬(k = "graph") ∧ ¬(k = "seqID")) := by
  induction mattrs with
  | nil => intro d h; exact Or.inl h
  | cons kv rest ih =>
      intro d h
      rw [propagateMeta_cons] at h
      by_cases hcase : kv.1 = "graph" ∨ kv.1 = "seqID"
      · rw [if_pos hcase] at h
        rcases ih d h with h | h
        · exact Or.inl h
        · exact Or.inr ⟨List.mem_cons_of_mem _ h.1, h.2⟩
      · rw [if_neg hcase] at h
        rcases ih _ h with h | h
        · rcases (mem_keys_dictSet d kv.1 k kv.2).mp h with h | h
          · subst h
            push_neg at hcase
            exact Or.inr ⟨List.mem_cons_self _ _, hcase⟩
          · exact Or.inl h
        · exact Or.inr ⟨List.mem_cons_of_mem _ h.1, h.2⟩

theorem propagateMeta_nodup (mattrs : List (String × AVal)) :
    ∀ d : Attrs, (d.map Prod.fst).Nodup →
      ((propagateMeta mattrs d).map Prod.fst).Nodup := by
  induction mattrs with
  | nil => intro d h; exact h
  | cons kv rest ih =>
      intro d h
      rw [propagateMeta_cons]
      by_cases hcase : kv.1 = "graph" ∨ kv.1 = "seqID"
      · rw [if_pos hcase]; exact ih d h
      · rw [if_neg hcase]; exact ih _ (nodup_keys_dictSet d kv.1 kv.2 h)

theorem alookup_dictUpdate_not_mem {α β : Type} [DecidableEq α]
    (d2 : List (α × β)) (k : α) (hk : k ∉ d2.map Prod.fst) :
    ∀ d : List (α × β), alookup (dictUpdate d d2) k = alookup d k := by
  induction d2 with
  | nil => intro d; rfl
  | cons kv rest ih =>
      intro d
      simp only [List.map_cons, List.mem_cons] at hk
      push_neg at hk
      have : dictUpdate d (kv :: rest) = dictUpdate (dictSet d kv.1 kv.2) rest := rfl
      rw [this, ih hk.2, alookup_dictSet_ne _ _ _ _ hk.1]

theorem alookup_dictUpdate_mem {α β : Type} [DecidableEq α]
    (d2 : List (α × β)) (k : α) (v : β) (hnd : (d2.map Prod.fst).Nodup)
    (hv : alookup d2 k = some v) :
    ∀ d : List (α × β), alookup (dictUpdate d d2) k = some v := by
  induction d2 with
  | nil => intro d; simp [alookup] at hv
  | cons kv rest ih =>
      intro d
      simp only [List.map_cons, List.nodup_cons] at hnd
      have hstep : dictUpdate d (kv :: rest) = dictUpdate (dictSet d kv.1 kv.2) rest := rfl
      rw [alookup_cons] at hv
      by_cases hk : k = kv.1
      · rw [if_pos hk] at hv
        cases hv
        rw [hstep, alookup_dictUpdate_not_mem rest k (fun hc => hnd.1 (hk ▸ hc)) _, hk]
        exact alookup_dictSet_self d kv.1 kv.2
      · rw [if_neg hk] at hv
        rw [hstep]
        exact ih hnd.2 hv _

theorem addNodeData_cases (ns : List (Nat × Attrs)) (n : Nat) (d : Attrs) :
    ∀ p ∈ addNodeData ns n d,
      p ∈ ns ∨ p = (n, d) ∨ ∃ a, (n, a) ∈ ns ∧ p = (n, dictUpdate a d) := by
  induction ns with
  | nil =>
      intro p hp
      simp only [addNodeData, List.mem_singleton] at hp
      exact Or.inr (Or.inl hp)
  | cons q rest ih =>
      intro p hp
      by_cases h : n = q.1
      · simp only [addNodeData, if_pos h] at hp
        rcases List.mem_cons.mp hp with hp | hp
        · exact Or.inr (Or.inr ⟨q.2, by
            constructor
            · rw [h]; exact List.mem_cons_self _ _
            · rw [hp, h]⟩)
        · exact Or.inl (List.mem_cons_of_mem _ hp)
      · simp only [addNodeData, if_neg h] at hp
        rcases List.mem_cons.mp hp with hp | hp
        · exact Or.inl (hp ▸ List.mem_cons_self _ _)
        · rcases ih p hp with hc | hc | ⟨a, ha, hc⟩
          · exact Or.inl (List.mem_cons_of_mem _ hc)
          · exact Or.inr (Or.inl hc)
          · exact Or.inr (Or.inr ⟨a, List.mem_cons_of_mem _ ha, hc⟩)

/-- The attribute invariant of residue nodes: no `graph` key, no `seqID`
key, and every other meta attribute copied with its value. -/
def GoodAttr (mattrs : Attrs) (x : Attrs) : Prop :=
  alookup x "graph" = none ∧ alookup x "seqID" = none ∧
    ∀ k v, ¬(k = "graph") → ¬(k = "seqID") → alookup mattrs k = some v →
      alookup x k = some v

theorem goodAttr_propagate (mattrs data : Attrs)
    (hnd : (mattrs.map Prod.fst).Nodup)
    (hdg : alookup data "graph" = none) (hds : alookup data "seqID" = none) :
    GoodAttr mattrs (propagateMeta mattrs data) := by
  refine ⟨?_, ?_, ?_⟩
  · rw [propagateMeta_lookup_special mattrs "graph" (Or.inl rfl) data]
    exact hdg
  · rw [propagateMeta_lookup_special mattrs "seqID" (Or.inr rfl) data]
    exact hds
  · intro k v hg hs hv
    exact propagateMeta_copies mattrs k v hnd hv hg hs data

theorem goodAttr_update (mattrs a data : Attrs)
    (hga : GoodAttr mattrs a)
    (hnd : (mattrs.map Prod.fst).Nodup) (hdnd : (data.map Prod.fst).Nodup)
    (hdg : alookup data "graph" = none) (hds : alookup data "seqID" = none) :
    GoodAttr mattrs (dictUpdate a (propagateMeta mattrs data)) := by
  have hkg : "graph" ∉ (propagateMeta mattrs data).map Prod.fst := by
    intro hc
    rcases propagateMeta_keys mattrs "graph" data hc with hc | hc
    · exact (alookup_eq_none_iff data "graph").mp hdg hc
    · exact hc.2.1 rfl
  have hks : "seqID" ∉ (propagateMeta mattrs data).map Prod.fst := by
    intro hc
    rcases propagateMeta_keys mattrs "seqID" data hc with hc | hc
    · exact (alookup_eq_none_iff data "seqID").mp hds hc
    · exact hc.2.2 rfl
  refine ⟨?_, ?_, ?_⟩
  · rw [alookup_dictUpdate_not_mem _ _ hkg a]
    exact hga.1
  · rw [alookup_dictUpdate_not_mem _ _ hks a]
    exact hga.2.1
  · intro k v hg hs hv
    exact alookup_dictUpdate_mem _ k v (propagateMeta_nodup mattrs data hdnd)
      (propagateMeta_copies mattrs k v hnd hv hg hs data) a

theorem collectResidue_good (mol : Molecule) (mattrs : Attrs) (resid : AVal)
    (hnd : (mattrs.map Prod.fst).Nodup)
    (hmol : ∀ p ∈ mol.nodes, alookup p.2 "graph" = none ∧ alookup p.2 "seqID" = none)
    (hmolnd : ∀ p ∈ mol.nodes, (p.2.map Prod.fst).Nodup) :
    ∀ (corr : List (Nat × Nat)) (acc ns : List (Nat × Attrs)),
      (∀ p ∈ acc, GoodAttr mattrs p.2) →
      collectResidue mol mattrs resid corr acc = some ns →
      ∀ p ∈ ns, GoodAttr mattrs p.2 := by
  intro corr
  induction corr with
  | nil =>
      intro acc ns hacc h
      rw [collectResidue] at h
      cases h
      exact hacc
  | cons p0 rest ih =>
      intro acc ns hacc h
      rw [collectResidue] at h
      cases hdata : alookup mol.nodes p0.2 with
      | none => rw [hdata] at h; simp at h
      | some data =>
          rw [hdata] at h
          simp only [Option.some_bind, optBind_some] at h
          cases hdr : alookup data "resid" with
          | none => rw [hdr] at h; simp at h
          | some dresid =>
              rw [hdr] at h
              simp only [Option.some_bind, optBind_some] at h
              have hdataMem := alookup_mem mol.nodes p0.2 data hdata
              have hdg := (hmol _ hdataMem).1
              have hds := (hmol _ hdataMem).2
              have hdnd := hmolnd _ hdataMem
              by_cases hmatch : dresid = resid
              · rw [if_pos hmatch] at h
                refine ih _ ns ?_ h
                intro q hq
                rcases addNodeData_cases acc p0.2 (propagateMeta mattrs data) q hq
                  with hc | hc | ⟨a, ha, hc⟩
                · exact hacc q hc
                · rw [hc]
                  exact goodAttr_propagate mattrs data hnd hdg hds
                · have hga := hacc (p0.2, a) ha
                  rw [hc]
                  exact goodAttr_update mattrs a data hga hnd hdnd hdg hds
              · rw [if_neg hmatch] at h
                exact ih _ ns hacc h

/-- C9.  Residue extraction never writes the `graph` or `seqID`
attribute onto a fine grained residue node: provided the fine grained
molecule nodes carry neither key (they come from block definitions),
every node of the residue produced by `_correspondence_to_residue`
carries no `graph` and no `seqID` key, while every other attribute of
the meta molecule node is copied onto it with its value. -/
theorem c9_no_graph_seqid_leak (mm : MetaMol) (mol : Molecule)
    (corr : List (Nat × Nat)) (res_node : Nat) (res : Molecule) (mattrs : Attrs)
    (hma : alookup mm.nodes res_node = some mattrs)
    (hnd : (mattrs.map Prod.fst).Nodup)
    (hmol : ∀ p ∈ mol.nodes, alookup p.2 "graph" = none ∧ alookup p.2 "seqID" = none)
    (hmolnd : ∀ p ∈ mol.nodes, (p.2.map Prod.fst).Nodup)
    (hres : correspondenceToResidue mm mol corr res_node = some res) :
    ∀ p ∈ res.nodes,
      alookup p.2 "graph" = none ∧ alookup p.2 "seqID" = none ∧
      ∀ k v, ¬(k = "graph") → ¬(k = "seqID") → alookup mattrs k = some v →
        alookup p.2 k = some v := by
  rw [correspondenceToResidue, hma] at hres
  simp only [Option.some_bind, optBind_some] at hres
  cases hrv : alookup mattrs "resid" with
  | none => rw [hrv] at hres; simp at hres
  | some rv =>
      rw [hrv] at hres
      simp only [Option.some_bind, optBind_some] at hres
      cases hcoll : collectResidue mol mattrs rv corr [] with
      | none => rw [hcoll] at hres; simp at hres
      | some ns =>
          rw [hcoll] at hres
          simp only [Option.some_bind, optBind_some, Option.some.injEq] at hres
          have hgood := collectResidue_good mol mattrs rv hnd hmol hmolnd corr [] ns
            (by intro p hp; simp at hp) hcoll
          intro p hp
          rw [← hres] at hp
          exact hgood p hp

/-- C9 witness: a meta node carrying a `seqID` attribute propagated onto
a one atom residue: the `seqID` does not reach the residue node while
`resname` does. -/
theorem c9_no_graph_seqid_leak_witness :
    alookup [("resid", AVal.int 1), ("atomname", AVal.str "C"),
        ("resname", AVal.str "R")] "graph" = none ∧
    alookup [("resid", AVal.int 1), ("atomname", AVal.str "C"),
        ("resname", AVal.str "R")] "seqID" = none ∧
    alookup [("resid", AVal.int 1), ("atomname", AVal.str "C"),
        ("resname", AVal.str "R")] "resname" = some (AVal.str "R") := by
  have h := c9_no_graph_seqid_leak
    ⟨[(5, [("resname", .str "R"), ("resid", .int 1), ("seqID", .int 7)])], []⟩
    ⟨[(0, [("resid", .int 1), ("atomname", .str "C")])], []⟩
    [(0, 0)] 5
    ⟨[(0, [("resid", .int 1), ("atomname", .str "C"), ("resname", .str "R")])], []⟩
    [("resname", .str "R"), ("resid", .int 1), ("seqID", .int 7)]
    rfl (by decide) (by decide) (by decide) rfl
    (0, [("resid", .int 1), ("atomname", .str "C"), ("resname", .str "R")])
    (by decide)
  exact ⟨h.1, h.2.1, h.2.2 "resname" (.str "R") (by decide) (by decide) rfl⟩

/-! ## Claim C10: residue subgraphs are edgeless with exactly the
matching correspondence targets -/

theorem addNodeData_ids (ns : List (Nat × Attrs)) (n : Nat) (d : Attrs) (m : Nat) :
    m ∈ (addNodeData ns n d).map Prod.fst ↔ m = n ∨ m ∈ ns.map Prod.fst := by
  induction ns with
  | nil => simp [addNodeData]
  | cons q rest ih =>
      by_cases h : n = q.1
      · subst h
        simp [addNodeData]
      · simp only [addNodeData, if_neg h, List.map_cons, List.mem_cons, ih]
        tauto

theorem correspondenceToResidue_edges (mm : MetaMol) (mol : Molecule)
    (corr : List (Nat × Nat)) (res_node : Nat) (res : Molecule)
    (hres : correspondenceToResidue mm mol corr res_node = some res) :
    res.edges = [] := by
  rw [correspondenceToResidue] at hres
  cases hma : alookup mm.nodes res_node with
  | none => rw [hma] at hres; simp at hres
  | some mattrs =>
      rw [hma] at hres
      simp only [Option.some_bind, optBind_some] at hres
      cases hrv : alookup mattrs "resid" with
      | none => rw [hrv] at hres; simp at hres
      | some rv =>
          rw [hrv] at hres
          simp only [Option.some_bind, optBind_some] at hres
          cases hcoll : collectResidue mol mattrs rv corr [] with
          | none => rw [hcoll] at hres; simp at hres
          | some ns =>
              rw [hcoll] at hres
              simp only [Option.some_bind, optBind_some, Option.some.injEq] at hres
              rw [← hres]

theorem collectResidue_ids (mol : Molecule) (mattrs : Attrs) (rv : AVal) :
    ∀ (corr : List (Nat × Nat)) (acc ns : List (Nat × Attrs)),
      collectResidue mol mattrs rv corr acc = some ns →
      ∀ m, m ∈ ns.map Prod.fst ↔
        (m ∈ acc.map Prod.fst ∨ ∃ p ∈ corr, p.2 = m ∧
          ∃ d, alookup mol.nodes m = some d ∧ alookup d "resid" = some rv) := by
  intro corr
  induction corr with
  | nil =>
      intro acc ns h m
      rw [collectResidue] at h
      cases h
      simp
  | cons p0 rest ih =>
      intro acc ns h m
      rw [collectResidue] at h
      cases hdata : alookup mol.nodes p0.2 with
      | none => rw [hdata] at h; simp at h
      | some data =>
          rw [hdata] at h
          simp only [Option.some_bind, optBind_some] at h
          cases hdr : alookup data "resid" with
          | none => rw [hdr] at h; simp at h
          | some dresid =>
              rw [hdr] at h
              simp only [Option.some_bind, optBind_some] at h
              by_cases hmatch : dresid = rv
              · rw [if_pos hmatch] at h
                subst hmatch
                rw [ih _ ns h m]
                constructor
                · rintro (hacc | ⟨p, hp, hpm, hd⟩)
                  · rcases (addNodeData_ids acc p0.2 _ m).mp hacc with hm | hm
                    · subst hm
                      exact Or.inr ⟨p0, List.mem_cons_self _ _, rfl, data, hdata, hdr⟩
                    · exact Or.inl hm
                  · exact Or.inr ⟨p, List.mem_cons_of_mem _ hp, hpm, hd⟩
                · rintro (hacc | ⟨p, hp, hpm, hd⟩)
                  · exact Or.inl ((addNodeData_ids acc p0.2 _ m).mpr (Or.inr hacc))
                  · rcases List.mem_cons.mp hp with hp | hp
                    · subst hp
                      subst hpm
                      exact Or.inl ((addNodeData_ids acc p.2 _ p.2).mpr (Or.inl rfl))
                    · exact Or.inr ⟨p, hp, hpm, hd⟩
              · rw [if_neg hmatch] at h
                rw [ih _ ns h m]
                constructor
                · rintro (hacc | ⟨p, hp, hpm, hd⟩)
                  · exact Or.inl hacc
                  · exact Or.inr ⟨p, List.mem_cons_of_mem _ hp, hpm, hd⟩
                · rintro (hacc | ⟨p, hp, hpm, ⟨d, hd, hdrv⟩⟩)
                  · exact Or.inl hacc
                  · rcases List.mem_cons.mp hp with hp | hp
                    · exfalso
                      subst hp
                      subst hpm
                      rw [hdata] at hd
                      cases hd
                      rw [hdr] at hdrv
                      cases hdrv
                      exact hmatch rfl
                    · exact Or.inr ⟨p, hp, hpm, d, hd, hdrv⟩

theorem addLoop_graphs_inv (mm : MetaMol) (ff : ForceField) (cls : ClassifyOut)
    (start_node : Nat) (added_fragments : List Nat) (Q : Nat × Molecule → Prop)
    (hQnew : ∀ (n : Nat) (r : Molecule), r.edges = [] → Q (n, r)) :
    ∀ (nodes : List Nat) (mol : Molecule) (mb : List (List (Nat × Nat)))
      (added : List Nat) (graphs : List (Nat × Molecule))
      (out : Molecule × List (Nat × Molecule)),
      (∀ p ∈ graphs, Q p) →
      addLoop mm ff cls start_node added_fragments nodes mol mb added graphs = .ok out →
      ∀ p ∈ out.2, Q p := by
  intro nodes
  induction nodes with
  | nil =>
      intro mol mb added graphs out hgraphs h
      rw [addLoop] at h
      cases h
      exact hgraphs
  | cons node rest ih =>
      intro mol mb added graphs out hgraphs h
      rw [addLoop] at h
      cases hE1 : nodeCorrespondence ff cls mb added mol node with
      | error e => rw [hE1, exceptBind_error] at h; cases h
      | ok mc =>
          rw [hE1, exceptBind_ok] at h
          cases hext : correspondenceToResidue mm mc.1 mc.2 node with
          | none => rw [hext] at h; simp [orRaise, exceptBind_error] at h
          | some residue =>
              rw [hext] at h
              simp only [orRaise, exceptBind_ok] at h
              have hres_edges := correspondenceToResidue_edges mm mc.1 mc.2 node
                residue hext
              have hgraphs2 : ∀ p ∈ graphs ++ [(node, residue)], Q p := by
                intro p hp
                rcases List.mem_append.mp hp with hp | hp
                · exact hgraphs p hp
                · rw [List.mem_singleton.mp hp]
                  exact hQnew node residue hres_edges
              by_cases hcond : hasFromItp mm node = true ∧ node ∉ added_fragments
              · rw [if_pos hcond] at h
                cases hfi : alookup cls.node_to_fragment start_node with
                | none => rw [hfi] at h; simp [orRaise, exceptBind_error] at h
                | some fragIdx =>
                    rw [hfi] at h
                    simp only [orRaise, exceptBind_ok] at h
                    cases hfn : cls.fragments.get? fragIdx with
                    | none => rw [hfn] at h; simp [orRaise, exceptBind_error] at h
                    | some fragment_nodes =>
                        rw [hfn] at h
                        simp only [orRaise, exceptBind_ok] at h
                        exact ih mc.1 (mb ++ [mc.2]) (added ++ fragment_nodes) _ out
                          hgraphs2 h
              · rw [if_neg hcond] at h
                exact ih mc.1 mb added _ out hgraphs2 h

/-- C10.  Every residue subgraph produced by
`_correspondence_to_residue` is an edgeless graph containing exactly
the correspondence target nodes whose `resid` equals the `resid` of the
meta molecule node; and in `add_blocks` every `graph` attribute except
the one of a first-in-order node without `from_itp` (which receives the
whole instantiated block) is such an extraction result, hence
edgeless. -/
theorem c10_residue_edgeless_exact_nodes :
    (∀ (mm : MetaMol) (mol : Molecule) (corr : List (Nat × Nat)) (res_node : Nat)
        (res : Molecule) (mattrs : Attrs) (rv : AVal),
      correspondenceToResidue mm mol corr res_node = some res →
      alookup mm.nodes res_node = some mattrs →
      alookup mattrs "resid" = some rv →
      res.edges = [] ∧
      ∀ m, m ∈ res.nodes.map Prod.fst ↔
        ∃ p ∈ corr, p.2 = m ∧
          ∃ d, alookup mol.nodes m = some d ∧ alookup d "resid" = some rv) ∧
    (∀ (mm : MetaMol) (ff : ForceField) (cls : ClassifyOut)
        (out : Molecule × List (Nat × Molecule)) (s : Nat) (rest : List Nat),
      addBlocks mm ff cls = .ok out →
      sortedNodeKeys mm = .ok (s :: rest) →
      ∀ p ∈ out.2, p.2.edges = [] ∨ (p.1 = s ∧ hasFromItp mm s = false)) := by
  constructor
  · intro mm mol corr res_node res mattrs rv hres hma hrv
    rw [correspondenceToResidue, hma] at hres
    simp only [Option.some_bind, optBind_some] at hres
    rw [hrv] at hres
    simp only [Option.some_bind, optBind_some] at hres
    cases hcoll : collectResidue mol mattrs rv corr [] with
    | none => rw [hcoll] at hres; simp at hres
    | some ns =>
        rw [hcoll] at hres
        simp only [Option.some_bind, optBind_some, Option.some.injEq] at hres
        subst hres
        refine ⟨rfl, ?_⟩
        intro m
        rw [collectResidue_ids mol mattrs rv corr [] ns hcoll m]
        simp
  · intro mm ff cls out s rest hab hsort
    rw [addBlocks, hsort, exceptBind_ok] at hab
    simp only [List.head?_cons, orRaise, exceptBind_ok, List.tail_cons] at hab
    cases hsn : alookup cls.node_to_block s with
    | none => rw [hsn] at hab; simp [orRaise, exceptBind_error] at hab
    | some sname =>
        rw [hsn] at hab
        simp only [orRaise, exceptBind_ok] at hab
        cases hsb : ffLookup ff sname with
        | none => rw [hsb] at hab; simp [orRaise, exceptBind_error] at hab
        | some sblk =>
            rw [hsb] at hab
            simp only [orRaise, exceptBind_ok] at hab
            by_cases hitp : hasFromItp mm s = true
            · rw [if_pos hitp] at hab
              cases hfi : alookup cls.node_to_fragment s with
              | none => rw [hfi] at hab; simp [orRaise, exceptBind_error] at hab
              | some fragIdx =>
                  rw [hfi] at hab
                  simp only [orRaise, exceptBind_ok] at hab
                  cases hfn : cls.fragments.get? fragIdx with
                  | none => rw [hfn] at hab; simp [orRaise, exceptBind_error] at hab
                  | some fragment_nodes =>
                      rw [hfn] at hab
                      simp only [orRaise, exceptBind_ok] at hab
                      cases hext : correspondenceToResidue mm (toMolecule sblk)
                          ((toMolecule sblk).nodes.map (fun p => (p.1, p.1))) s with
                      | none => rw [hext] at hab; simp [orRaise, exceptBind_error] at hab
                      | some residue =>
                          rw [hext] at hab
                          simp only [orRaise, exceptBind_ok] at hab
                          refine addLoop_graphs_inv mm ff cls s []
                            (fun p => p.2.edges = [] ∨ (p.1 = s ∧ hasFromItp mm s = false))
                            (fun n r hr => Or.inl hr) rest (toMolecule sblk) _ _ _
                            out ?_ hab
                          intro p hp
                          rw [List.mem_singleton.mp hp]
                          exact Or.inl (correspondenceToResidue_edges mm _ _ s residue hext)
            · rw [if_neg hitp] at hab
              refine addLoop_graphs_inv mm ff cls s []
                (fun p => p.2.edges = [] ∨ (p.1 = s ∧ hasFromItp mm s = false))
                (fun n r hr => Or.inl hr) rest (toMolecule sblk) _ _ _ out ?_ hab
              intro p hp
              rw [List.mem_singleton.mp hp]
              exact Or.inr ⟨rfl, Bool.not_eq_true _ ▸ hitp⟩

/-- C10 witness: extracting residue 1 from a two atom molecule through
the identity correspondence yields an edgeless graph holding exactly
the atom whose `resid` is 1. -/
theorem c10_residue_edgeless_witness :
    (Molecule.mk [(0, [("resid", AVal.int 1), ("resname", .str "R")])] []).edges
        = [] ∧
    ∀ m, m ∈ (Molecule.mk
        [(0, [("resid", AVal.int 1), ("resname", .str "R")])] []).nodes.map
          Prod.fst ↔
      ∃ p ∈ [((0 : Nat), (0 : Nat)), (1, 1)], p.2 = m ∧
        ∃ d, alookup [(0, [("resid", AVal.int 1)]), (1, [("resid", AVal.int 2)])]
            m = some d ∧ alookup d "resid" = some (.int 1) :=
  c10_residue_edgeless_exact_nodes.1
    ⟨[(7, [("resname", .str "R"), ("resid", .int 1)])], []⟩
    ⟨[(0, [("resid", .int 1)]), (1, [("resid", .int 2)])], []⟩
    [(0, 0), (1, 1)] 7
    ⟨[(0, [("resid", .int 1), ("resname", .str "R")])], []⟩
    [("resname", .str "R"), ("resid", .int 1)] (.int 1)
    rfl rfl rfl

/-! ## Claim C5: inconsistent fragments and the moment of the error -/

/-- C5, counterexample.  The triangle `mmTri` contains a connected
restart component in the sense of the claim: nodes 1 and 3 both carry
`from_itp`, are joined by the edge `(1, 3)`, and reference the two
distinct names `X` and `Y`.  Yet the depth first traversal classifies
only the tree edges `(1, 2)` and `(2, 3)`, both regular, so
classification succeeds, exclusion normalisation mutates the template
library (every residue block receives an `exclude` tag and a lowered
`nrexcl`), and only then does assembly raise a key error: an error is
raised, but after the template library has been mutated. -/
theorem c5_mutation_before_error_counterexample :
    (1, 3) ∈ mmTri.edges ∧
    alookup (restartAttr mmTri) 1 = some (.str "X") ∧
    alookup (restartAttr mmTri) 3 = some (.str "Y") ∧
    AVal.str "X" ≠ AVal.str "Y" ∧
    runMolecule mmTri ffTri =
      { err := some (.missingFragmentEntry 1), ff := ffTriTagged, molecule := none
        resGraphs := [] } ∧
    ffTriTagged ≠ ffTri := by
  refine ⟨by decide, rfl, rfl, by decide, rfl, by decide⟩

theorem lookupVals_mem (ra : List (Nat × AVal)) :
    ∀ (comp : List Nat) (vals : List AVal), lookupVals ra comp = .ok vals →
      ∀ n ∈ comp, ∃ v, alookup ra n = some v ∧ v ∈ vals := by
  intro comp
  induction comp with
  | nil => intro vals _ n hn; simp at hn
  | cons c cs ih =>
      intro vals h n hn
      rw [lookupVals] at h
      cases hc : alookup ra c with
      | none => rw [hc] at h; simp [orRaise, exceptBind_error] at h
      | some v0 =>
          rw [hc] at h
          simp only [orRaise, exceptBind_ok] at h
          cases htail : lookupVals ra cs with
          | error e => rw [htail] at h; simp [exceptBind_error] at h
          | ok tail =>
              rw [htail] at h
              simp only [exceptBind_ok, exceptPure_eq_ok, Except.ok.injEq] at h
              subst h
              rcases List.mem_cons.mp hn with hn | hn
              · exact ⟨v0, hn ▸ hc, List.mem_cons_self _ _⟩
              · rcases ih tail htail n hn with ⟨v, hv, hvm⟩
                exact ⟨v, hv, List.mem_cons_of_mem _ hvm⟩

theorem processFragment_inconsistent (ra : List (Nat × AVal)) (ff : ForceField)
    (comp : List Nat) (m1 m2 : Nat) (X Y : AVal)
    (h1 : m1 ∈ comp) (h2 : m2 ∈ comp)
    (hx : alookup ra m1 = some X) (hy : alookup ra m2 = some Y) (hxy : X ≠ Y) :
    ∃ e, processFragment ra ff comp = .error e := by
  cases comp with
  | nil => simp at h1
  | cons c cs =>
      rw [processFragment]
      simp only [List.head?_cons, orRaise, exceptBind_ok]
      cases hc : alookup ra c with
      | none => exact ⟨.missingAttr c "from_itp", by simp [orRaise, exceptBind_error]⟩
      | some B =>
          simp only [orRaise, exceptBind_ok]
          cases hvals : lookupVals ra (c :: cs) with
          | error e => exact ⟨e, by simp [exceptBind_error]⟩
          | ok vals =>
              simp only [exceptBind_ok]
              have hXv : X ∈ vals := by
                rcases lookupVals_mem ra (c :: cs) vals hvals m1 h1 with ⟨v, hv, hvm⟩
                rw [hx] at hv
                cases hv
                exact hvm
              have hYv : Y ∈ vals := by
                rcases lookupVals_mem ra (c :: cs) vals hvals m2 h2 with ⟨v, hv, hvm⟩
                rw [hy] at hv
                cases hv
                exact hvm
              have hall : vals.all (fun v => v = B) = false := by
                by_contra hcon
                have htrue : vals.all (fun v => v = B) = true :=
                  Bool.not_eq_false _ ▸ hcon
                have hXB : X = B := by
                  have := List.all_eq_true.mp htrue X hXv
                  exact of_decide_eq_true this
                have hYB : Y = B := by
                  have := List.all_eq_true.mp htrue Y hYv
                  exact of_decide_eq_true this
                exact hxy (hXB.trans hYB.symm)
              rw [hall]
              exact ⟨.inconsistentFragment, by simp⟩

theorem fragmentLoop_err (ra : List (Nat × AVal)) (ff : ForceField) :
    ∀ (comps : List (List Nat)) (c : List Nat), c ∈ comps →
      (∃ e, processFragment ra ff c = .error e) →
      ∀ st : ClassifyOut, ∃ e, fragmentLoop ra ff comps st = .error e := by
  intro comps
  induction comps with
  | nil => intro c hc _ _; simp at hc
  | cons c0 tail ih =>
      intro c hc he st
      rw [fragmentLoop]
      cases hp : processFragment ra ff c0 with
      | error e => exact ⟨e, by simp [exceptBind_error]⟩
      | ok bn =>
          simp only [exceptBind_ok]
          rcases List.mem_cons.mp hc with hc | hc
          · rcases he with ⟨e, he⟩
            rw [hc, hp] at he
            cases he
          · exact ih c hc he _

/-- C5, amended.  When a connected component of the restart graph the
classifier actually builds (from the depth first tree edges whose two
endpoints carry `from_itp`) references two distinct `from_itp` names,
`run_molecule` raises an error during classification, before the
template library or any fine grained molecule is touched: the returned
force field is exactly the input one, no molecule exists and no `graph`
attribute has been assigned.  (The restriction to the traversal's own
restart graph is forced: a restart component in the claim's sense can
evade the traversal, as the counterexample shows, and the pipeline then
fails only after the library has been normalised.) -/
theorem c5_inconsistent_component_aborts_amended (mm : MetaMol) (ff : ForceField)
    (comp : List Nat) (m1 m2 : Nat) (X Y : AVal)
    (hcomp : comp ∈ restartComponents mm) (h1 : m1 ∈ comp) (h2 : m2 ∈ comp)
    (hx : alookup (restartAttr mm) m1 = some X)
    (hy : alookup (restartAttr mm) m2 = some Y) (hxy : X ≠ Y) :
    ∃ e, runMolecule mm ff =
      { err := some e, ff := ff, molecule := none, resGraphs := [] } := by
  cases hcls : matchNodesToBlocks mm ff with
  | error e =>
      refine ⟨e, ?_⟩
      rw [runMolecule, hcls]
  | ok cls =>
      exfalso
      rw [matchNodesToBlocks] at hcls
      cases hreg : regularLoop mm (nodesOfEdges (regularEdgesOf mm)) [] with
      | error e => rw [hreg, exceptBind_error] at hcls; cases hcls
      | ok ntb =>
          rw [hreg, exceptBind_ok] at hcls
          rcases fragmentLoop_err (restartAttr mm) ff (restartComponents mm) comp
              hcomp
              (processFragment_inconsistent (restartAttr mm) ff comp m1 m2 X Y
                h1 h2 hx hy hxy)
              { node_to_block := ntb, node_to_fragment := [], fragments := [] }
            with ⟨e, he⟩
          rw [he] at hcls
          cases hcls

/-- C5 witness: two directly bonded restart nodes with the distinct
names `X` and `Y` form the single restart component `[2, 1]`, and the
pipeline aborts with the library untouched. -/
theorem c5_inconsistent_component_witness :
    ∃ e, runMolecule mmPairBad ffTri =
      { err := some e, ff := ffTri, molecule := none, resGraphs := [] } :=
  c5_inconsistent_component_aborts_amended mmPairBad ffTri [2, 1] 1 2
    (.str "X") (.str "Y") (by decide) (by decide) (by decide) rfl rfl (by decide)

/-! ## Claim C3: fragment bookkeeping indexes the first node -/

theorem addLoop_from_itp_err (mm : MetaMol) (ff : ForceField) (cls : ClassifyOut)
    (start_node : Nat)
    (hntf : alookup cls.node_to_fragment start_node = none) :
    ∀ nodes : List Nat, (∃ t ∈ nodes, hasFromItp mm t = true) →
      ∀ (mol : Molecule) (mb : List (List (Nat × Nat)))
        (graphs : List (Nat × Molecule)),
        ∃ e, addLoop mm ff cls start_node [] nodes mol mb [] graphs = .error e := by
  intro nodes
  induction nodes with
  | nil => rintro ⟨t, ht, _⟩; simp at ht
  | cons node rest ih =>
      rintro ⟨t, ht, hitp⟩ mol mb graphs
      rw [addLoop]
      cases hE1 : nodeCorrespondence ff cls mb [] mol node with
      | error e => exact ⟨e, by rw [exceptBind_error]⟩
      | ok mc =>
          rw [exceptBind_ok]
          cases hext : correspondenceToResidue mm mc.1 mc.2 node with
          | none =>
              exact ⟨.missingAttr node "resid", by simp [orRaise, exceptBind_error]⟩
          | some residue =>
              simp only [orRaise, exceptBind_ok]
              by_cases hni : hasFromItp mm node = true
              · rw [if_pos ⟨hni, List.not_mem_nil node⟩, hntf]
                exact ⟨.missingFragmentEntry start_node, by
                  simp [orRaise, exceptBind_error]⟩
              · rw [if_neg (fun hc => hni hc.1)]
                apply ih
                refine ⟨t, ?_, hitp⟩
                rcases List.mem_cons.mp ht with ht | ht
                · exact absurd (ht ▸ hitp) hni
                · exact ht

/-- C3.  When the first node in `(resid, node)` order carries no
`from_itp` (and hence, on a freshly initialised processor, has no
`node_to_fragment` entry) while some later node does carry `from_itp`,
`add_blocks` fails: the fragment bookkeeping after that later node's
residue extraction indexes `node_to_fragment[start_node]`, whose lookup
raises, so assembly never completes. -/
theorem c3_fragment_bookkeeping_start_failure (mm : MetaMol) (ff : ForceField)
    (cls : ClassifyOut) (s : Nat) (rest : List Nat)
    (hsort : sortedNodeKeys mm = .ok (s :: rest))
    (hs : hasFromItp mm s = false)
    (hntf : alookup cls.node_to_fragment s = none)
    (ht : ∃ t ∈ rest, hasFromItp mm t = true) :
    ∃ e, addBlocks mm ff cls = .error e := by
  rw [addBlocks, hsort, exceptBind_ok]
  simp only [List.head?_cons, orRaise, exceptBind_ok, List.tail_cons]
  cases hsn : alookup cls.node_to_block s with
  | none => exact ⟨.missingNodeEntry s, by simp [exceptBind_error]⟩
  | some sname =>
      simp only [exceptBind_ok]
      cases hsb : ffLookup ff sname with
      | none => exact ⟨.missingBlock sname, by simp [exceptBind_error]⟩
      | some sblk =>
          simp only [exceptBind_ok]
          rw [if_neg (fun hc : hasFromItp mm s = true => by rw [hs] at hc; cases hc)]
          exact addLoop_from_itp_err mm ff cls s hntf rest ht (toMolecule sblk) []
            [(s, toMolecule sblk)]

/-- C3 witness: node 1 (resid 1, no `from_itp`) is first, node 2 carries
`from_itp`; with the classifier bookkeeping of that meta molecule,
assembly fails. -/
theorem c3_fragment_bookkeeping_start_failure_witness :
    ∃ e, addBlocks mmMix ffMix
        { node_to_block := [(1, .str "RA"), (2, .str "RB")], node_to_fragment := []
          fragments := [] } = .error e :=
  c3_fragment_bookkeeping_start_failure mmMix ffMix
    { node_to_block := [(1, .str "RA"), (2, .str "RB")], node_to_fragment := []
      fragments := [] }
    1 [2] rfl rfl rfl ⟨2, by decide, rfl⟩

/-! ## Claim C2: one fragment merged exactly once, residues partition -/

theorem collectResidue_some (mol : Molecule) (mattrs : Attrs) (rv : AVal) :
    ∀ (corr : List (Nat × Nat)) (acc : List (Nat × Attrs)),
      (∀ p ∈ corr, ∃ d rd, alookup mol.nodes p.2 = some d ∧
        alookup d "resid" = some rd) →
      ∃ ns, collectResidue mol mattrs rv corr acc = some ns := by
  intro corr
  induction corr with
  | nil => intro acc _; exact ⟨acc, rfl⟩
  | cons p0 rest ih =>
      intro acc hcorr
      rcases hcorr p0 (List.mem_cons_self _ _) with ⟨d, rd, hd, hrd⟩
      have hrest := fun p hp => hcorr p (List.mem_cons_of_mem _ hp)
      rw [collectResidue, hd]
      simp only [Option.some_bind, optBind_some]
      rw [hrd]
      simp only [Option.some_bind, optBind_some]
      by_cases hmatch : rd = rv
      · rw [if_pos hmatch]
        exact ih _ hrest
      · rw [if_neg hmatch]
        exact ih _ hrest

/-- C2, counterexample.  The claim quantifies over every meta molecule
in which two nodes belong to the same multi-residue fragment, but it
fails whenever the first node in ascending resid order lies outside the
fragment: in the chain `mmChain`, nodes 2 and 3 carry the same
`from_itp` value and are joined by a restart edge (the classifier
itself records them as one consistent fragment), yet assembly aborts
with the key error of `node_to_fragment[start_node]` when it reaches
node 2, so no molecule is assembled at all — in particular nothing is
merged exactly once and no residue subgraphs are extracted. -/
theorem c2_outside_fragment_start_counterexample :
    alookup (restartAttr mmChain) 2 = some (.str "PEO") ∧
    alookup (restartAttr mmChain) 3 = some (.str "PEO") ∧
    (2, 3) ∈ mmChain.edges ∧
    matchNodesToBlocks mmChain ffChain =
      .ok ⟨[(1, .str "RA"), (2, .str "PEO"), (3, .str "PEO")],
        [(3, 0), (2, 0)], [[3, 2]]⟩ ∧
    runMolecule mmChain ffChain =
      { err := some (.missingFragmentEntry 1), ff := ffChain, molecule := none
        resGraphs := [] } := by
  refine ⟨rfl, rfl, by decide, rfl, rfl⟩

/-- C2, amended.  For the two node meta molecule whose nodes both
belong to one multi-residue fragment (`from_itp = X`, resids 1 and 2 —
so the resid-first node is part of the fragment), the pipeline
instantiates the fragment template exactly once: the assembled molecule
is one instantiation of the block (its node count is the block node
count, nothing is merged twice), and the two extracted residues are
disjoint, non empty subsets of that instantiation, partitioned by
`resid`. -/
theorem c2_single_merge_partition (X : String) (blk : Block)
    (hnd : (blk.nodes.map Prod.fst).Nodup)
    (hresid : ∀ p ∈ blk.nodes, alookup p.2 "resid" = some (.int 1) ∨
      alookup p.2 "resid" = some (.int 2))
    (h1 : ∃ p ∈ blk.nodes, alookup p.2 "resid" = some (.int 1))
    (h2 : ∃ p ∈ blk.nodes, alookup p.2 "resid" = some (.int 2)) :
    ∃ g1 g2 : Molecule,
      runMolecule (mmPair X) (ffPair X blk) =
        { err := none, ff := ffPair X blk, molecule := some (toMolecule blk)
          resGraphs := [(1, g1), (2, g2)] } ∧
      (toMolecule blk).nodes.length = blk.nodes.length ∧
      (∀ m, m ∈ g1.nodes.map Prod.fst ↔
        ∃ p ∈ blk.nodes, p.1 = m ∧ alookup p.2 "resid" = some (.int 1)) ∧
      (∀ m, m ∈ g2.nodes.map Prod.fst ↔
        ∃ p ∈ blk.nodes, p.1 = m ∧ alookup p.2 "resid" = some (.int 2)) ∧
      g1.nodes ≠ [] ∧ g2.nodes ≠ [] ∧
      (∀ m, m ∈ g1.nodes.map Prod.fst → m ∉ g2.nodes.map Prod.fst) ∧
      (∀ m, m ∈ g1.nodes.map Prod.fst → m ∈ (toMolecule blk).nodes.map Prod.fst) ∧
      (∀ m, m ∈ g2.nodes.map Prod.fst → m ∈ (toMolecule blk).nodes.map Prod.fst) := by
  -- the traversal sees one restart edge and one consistent fragment
  have hra : restartAttr (mmPair X) = [(1, .str X), (2, .str X)] := rfl
  have hreg : regularEdgesOf (mmPair X) = [] := rfl
  have hre : restartEdgesOf (mmPair X) = [(1, 2)] := rfl
  have hcomps : restartComponents (mmPair X) = [[2, 1]] := by
    rw [restartComponents, hre]
    rfl
  have hffl : ffLookup (ffPair X blk) (.str X) = some blk := by
    simp [ffLookup, ffPair, alookup]
  -- classification
  have hpf : processFragment (restartAttr (mmPair X)) (ffPair X blk) [2, 1] =
      .ok (.str X) := by
    rw [processFragment]
    rw [hra]
    simp only [List.head?_cons, orRaise, exceptBind_ok]
    have hlv : lookupVals [(1, AVal.str X), (2, AVal.str X)] [2, 1] =
        .ok [.str X, .str X] := rfl
    rw [show alookup [(1, AVal.str X), (2, AVal.str X)] 2 = some (.str X) from rfl]
    simp only [exceptBind_ok, hlv]
    have hall : ([AVal.str X, AVal.str X]).all (fun v => v = AVal.str X) = true := by
      simp
    rw [hall]
    simp only [if_true, hffl, orRaise, exceptBind_ok, exceptPure_eq_ok]
  have hcls : matchNodesToBlocks (mmPair X) (ffPair X blk) = .ok (clsPair X) := by
    rw [matchNodesToBlocks, hreg]
    rw [show regularLoop (mmPair X) (nodesOfEdges []) [] =
      .ok ([] : List (Nat × AVal)) from rfl]
    rw [exceptBind_ok, hcomps, fragmentLoop, hpf, exceptBind_ok, fragmentLoop]
    rfl
  -- exclusion normalisation is a no-op: one block, one nrexcl value
  have hce : collectExcls (clsPair X).node_to_block (ffPair X blk) =
      some [(2, .str X, blk.nrexcl), (1, .str X, blk.nrexcl)] := by
    show collectExcls [(2, .str X), (1, .str X)] (ffPair X blk) = _
    rw [collectExcls, hffl]
    simp only [Option.some_bind, optBind_some]
    rw [collectExcls, hffl]
    simp only [Option.some_bind, optBind_some]
    rw [collectExcls]
    simp only [Option.some_bind, optBind_some]
  have htag : tagExclusions (clsPair X).node_to_block (ffPair X blk) =
      some (ffPair X blk) := by
    apply c6_tag_exclusions_noop _ _ _ hce
    intro e he e2 he2
    rcases List.mem_cons.mp he with h | h <;>
      rcases List.mem_cons.mp he2 with h' | h' <;>
        simp_all
  -- residue extraction succeeds for the identity correspondence
  have hcorr_ok : ∀ p ∈ blk.nodes.map (fun p => (p.1, p.1)),
      ∃ d rd, alookup (toMolecule blk).nodes p.2 = some d ∧
        alookup d "resid" = some rd := by
    intro p hp
    rcases List.mem_map.mp hp with ⟨q, hq, rfl⟩
    refine ⟨q.2, ?_⟩
    have hlq : alookup (toMolecule blk).nodes q.1 = some q.2 :=
      alookup_of_mem_nodup blk.nodes q.1 q.2 hq hnd
    rcases hresid q hq with hr | hr
    · exact ⟨.int 1, hlq, hr⟩
    · exact ⟨.int 2, hlq, hr⟩
  have attrs1eq : alookup (mmPair X).nodes 1 =
      some [("resname", .str "R1"), ("resid", .int 1), ("from_itp", .str X)] := rfl
  have attrs2eq : alookup (mmPair X).nodes 2 =
      some [("resname", .str "R2"), ("resid", .int 2), ("from_itp", .str X)] := rfl
  rcases collectResidue_some (toMolecule blk)
      [("resname", .str "R1"), ("resid", .int 1), ("from_itp", .str X)] (.int 1)
      (blk.nodes.map (fun p => (p.1, p.1))) [] hcorr_ok with ⟨ns1, hns1⟩
  rcases collectResidue_some (toMolecule blk)
      [("resname", .str "R2"), ("resid", .int 2), ("from_itp", .str X)] (.int 2)
      (blk.nodes.map (fun p => (p.1, p.1))) [] hcorr_ok with ⟨ns2, hns2⟩
  have hext1 : correspondenceToResidue (mmPair X) (toMolecule blk)
      (blk.nodes.map (fun p => (p.1, p.1))) 1 = some ⟨ns1, []⟩ := by
    rw [correspondenceToResidue, attrs1eq]
    simp only [Option.some_bind, optBind_some]
    rw [show alookup [("resname", AVal.str "R1"), ("resid", AVal.int 1),
      ("from_itp", AVal.str X)] "resid" = some (.int 1) from rfl]
    simp only [Option.some_bind, optBind_some]
    rw [hns1]
    simp only [Option.some_bind, optBind_some]
  have hext2 : correspondenceToResidue (mmPair X) (toMolecule blk)
      (blk.nodes.map (fun p => (p.1, p.1))) 2 = some ⟨ns2, []⟩ := by
    rw [correspondenceToResidue, attrs2eq]
    simp only [Option.some_bind, optBind_some]
    rw [show alookup [("resname", AVal.str "R2"), ("resid", AVal.int 2),
      ("from_itp", AVal.str X)] "resid" = some (.int 2) from rfl]
    simp only [Option.some_bind, optBind_some]
    rw [hns2]
    simp only [Option.some_bind, optBind_some]
  -- the identity correspondence of the instantiated block
  have hcorr_eq : (toMolecule blk).nodes.map (fun p => (p.1, p.1)) =
      blk.nodes.map (fun p => (p.1, p.1)) := rfl
  -- assembly: the first node instantiates the fragment, the second
  -- reuses the stored correspondence, nothing is merged
  have haddb : addBlocks (mmPair X) (ffPair X blk) (clsPair X) =
      .ok (toMolecule blk, [(1, ⟨ns1, []⟩), (2, ⟨ns2, []⟩)]) := by
    rw [addBlocks]
    rw [show sortedNodeKeys (mmPair X) = .ok [1, 2] from rfl]
    rw [exceptBind_ok]
    simp only [List.head?_cons, orRaise, exceptBind_ok, List.tail_cons]
    rw [show alookup (clsPair X).node_to_block 1 = some (.str X) from rfl]
    simp only [exceptBind_ok]
    rw [hffl]
    simp only [exceptBind_ok]
    rw [if_pos (show hasFromItp (mmPair X) 1 = true from rfl)]
    rw [show alookup (clsPair X).node_to_fragment 1 = some 0 from rfl]
    simp only [exceptBind_ok]
    rw [show (clsPair X).fragments.get? 0 = some [2, 1] from rfl]
    simp only [exceptBind_ok]
    rw [hcorr_eq, hext1]
    simp only [orRaise, exceptBind_ok]
    -- the loop over the remaining node 2
    rw [addLoop]
    rw [show nodeCorrespondence (ffPair X blk) (clsPair X)
        [blk.nodes.map (fun p => (p.1, p.1))] [2, 1] (toMolecule blk) 2 =
        .ok (toMolecule blk, blk.nodes.map (fun p => (p.1, p.1))) from by
      rw [nodeCorrespondence, if_pos (show (2 : Nat) ∈ [2, 1] by decide)]
      rfl]
    rw [exceptBind_ok, hext2]
    simp only [orRaise, exceptBind_ok]
    rw [if_pos (show (hasFromItp (mmPair X) 2 = true ∧ (2 : Nat) ∉ ([] : List Nat))
      from ⟨rfl, List.not_mem_nil 2⟩)]
    rw [show alookup (clsPair X).node_to_fragment 1 = some 0 from rfl]
    simp only [exceptBind_ok]
    rw [show (clsPair X).fragments.get? 0 = some [2, 1] from rfl]
    simp only [exceptBind_ok]
    rw [addLoop]
    rfl
  -- node id characterisations of the two residues
  have hid1 : ∀ m, m ∈ ns1.map Prod.fst ↔
      ∃ p ∈ blk.nodes.map (fun p => (p.1, p.1)), p.2 = m ∧
        ∃ d, alookup (toMolecule blk).nodes m = some d ∧
          alookup d "resid" = some (.int 1) := by
    intro m
    rw [collectResidue_ids _ _ _ _ _ _ hns1 m]
    simp
  have hid2 : ∀ m, m ∈ ns2.map Prod.fst ↔
      ∃ p ∈ blk.nodes.map (fun p => (p.1, p.1)), p.2 = m ∧
        ∃ d, alookup (toMolecule blk).nodes m = some d ∧
          alookup d "resid" = some (.int 2) := by
    intro m
    rw [collectResidue_ids _ _ _ _ _ _ hns2 m]
    simp
  have hid1' : ∀ m, m ∈ ns1.map Prod.fst ↔
      ∃ p ∈ blk.nodes, p.1 = m ∧ alookup p.2 "resid" = some (.int 1) := by
    intro m
    rw [hid1 m]
    constructor
    · rintro ⟨p, hp, hpm, d, hd, hdr⟩
      rcases List.mem_map.mp hp with ⟨q, hq, rfl⟩
      simp only at hpm
      subst hpm
      have : alookup (toMolecule blk).nodes q.1 = some q.2 :=
        alookup_of_mem_nodup blk.nodes q.1 q.2 hq hnd
      rw [this] at hd
      cases hd
      exact ⟨q, hq, rfl, hdr⟩
    · rintro ⟨q, hq, hqm, hqr⟩
      refine ⟨(q.1, q.1), List.mem_map.mpr ⟨q, hq, rfl⟩, hqm, q.2, ?_, hqr⟩
      rw [← hqm]
      exact alookup_of_mem_nodup blk.nodes q.1 q.2 hq hnd
  have hid2' : ∀ m, m ∈ ns2.map Prod.fst ↔
      ∃ p ∈ blk.nodes, p.1 = m ∧ alookup p.2 "resid" = some (.int 2) := by
    intro m
    rw [hid2 m]
    constructor
    · rintro ⟨p, hp, hpm, d, hd, hdr⟩
      rcases List.mem_map.mp hp with ⟨q, hq, rfl⟩
      simp only at hpm
      subst hpm
      have : alookup (toMolecule blk).nodes q.1 = some q.2 :=
        alookup_of_mem_nodup blk.nodes q.1 q.2 hq hnd
      rw [this] at hd
      cases hd
      exact ⟨q, hq, rfl, hdr⟩
    · rintro ⟨q, hq, hqm, hqr⟩
      refine ⟨(q.1, q.1), List.mem_map.mpr ⟨q, hq, rfl⟩, hqm, q.2, ?_, hqr⟩
      rw [← hqm]
      exact alookup_of_mem_nodup blk.nodes q.1 q.2 hq hnd
  refine ⟨⟨ns1, []⟩, ⟨ns2, []⟩, ?_, rfl, hid1', hid2', ?_, ?_, ?_, ?_, ?_⟩
  · simp only [runMolecule, hcls, htag, haddb]
  · rcases h1 with ⟨q, hq, hqr⟩
    intro hnil
    have : q.1 ∈ ns1.map Prod.fst := (hid1' q.1).mpr ⟨q, hq, rfl, hqr⟩
    rw [show (Molecule.mk ns1 []).nodes = ns1 from rfl] at hnil
    rw [hnil] at this
    simp at this
  · rcases h2 with ⟨q, hq, hqr⟩
    intro hnil
    have : q.1 ∈ ns2.map Prod.fst := (hid2' q.1).mpr ⟨q, hq, rfl, hqr⟩
    rw [show (Molecule.mk ns2 []).nodes = ns2 from rfl] at hnil
    rw [hnil] at this
    simp at this
  · intro m hm1 hm2
    rcases (hid1 m).mp hm1 with ⟨_, _, _, d, hd, hdr⟩
    rcases (hid2 m).mp hm2 with ⟨_, _, _, d', hd', hdr'⟩
    rw [hd] at hd'
    cases hd'
    rw [hdr] at hdr'
    cases hdr'
  · intro m hm
    rcases (hid1 m).mp hm with ⟨_, _, _, d, hd, _⟩
    exact List.mem_map.mpr ⟨(m, d), alookup_mem _ _ _ hd, rfl⟩
  · intro m hm
    rcases (hid2 m).mp hm with ⟨_, _, _, d, hd, _⟩
    exact List.mem_map.mpr ⟨(m, d), alookup_mem _ _ _ hd, rfl⟩

/-- C2 witness: a concrete three atom fragment template (resids 1, 1
and 2) assembled for the two node meta molecule. -/
theorem c2_single_merge_partition_witness :
    ∃ g1 g2 : Molecule,
      runMolecule (mmPair "PEO") (ffPair "PEO" blkPairW) =
        { err := none, ff := ffPair "PEO" blkPairW
          molecule := some (toMolecule blkPairW)
          resGraphs := [(1, g1), (2, g2)] } ∧
      (toMolecule blkPairW).nodes.length = blkPairW.nodes.length ∧
      (∀ m, m ∈ g1.nodes.map Prod.fst ↔
        ∃ p ∈ blkPairW.nodes, p.1 = m ∧ alookup p.2 "resid" = some (.int 1)) ∧
      (∀ m, m ∈ g2.nodes.map Prod.fst ↔
        ∃ p ∈ blkPairW.nodes, p.1 = m ∧ alookup p.2 "resid" = some (.int 2)) ∧
      g1.nodes ≠ [] ∧ g2.nodes ≠ [] ∧
      (∀ m, m ∈ g1.nodes.map Prod.fst → m ∉ g2.nodes.map Prod.fst) ∧
      (∀ m, m ∈ g1.nodes.map Prod.fst →
        m ∈ (toMolecule blkPairW).nodes.map Prod.fst) ∧
      (∀ m, m ∈ g2.nodes.map Prod.fst →
        m ∈ (toMolecule blkPairW).nodes.map Prod.fst) :=
  c2_single_merge_partition "PEO" blkPairW (by decide)
    (by decide)
    ⟨(0, [("resid", .int 1), ("atomname", .str "C1")]), by decide, by decide⟩
    ⟨(2, [("resid", .int 2), ("atomname", .str "C3")]), by decide, by decide⟩

end MapToMol
